import Mathlib

/-!
Verification of the entity-resolution / fact-attachment core of the
Continuity prototype.

The development shallowly embeds the Python source:

* `AI/models/fact_extractor.py` — sentence splitting with spans, mention-regex
  matching, the per-(entity, sentence) LLM extraction loop, tolerant JSON
  recovery (`_safe_json`), fact construction and de-duplication;
* `AI/models/ner_extractor.py` — span filtering, label mapping, possessive
  normalisation, `(entityType, normalized name)` de-duplication, surname
  consolidation, alias finalisation, and the hybrid pattern-rule pass;
* `AI/models/llm_manager.py` — the completion service is modelled as an
  oracle that either returns raw text or raises (timeout / other exception);
  `generate_json` builds its prompt purely from the entity name and the
  sentence, so the oracle is a function of those two strings.

Python strings are modelled as `List Char`; character classification
(`isalnum`, `\w`, `\s`, `lower`) uses the ASCII behaviour, which coincides
with Python on all inputs appearing in the claims.  Exceptions are modelled
with `Except PyErr`.  Python float confidences are modelled as `ℚ`.
-/

/-- Exceptions that the modelled code can raise. -/
inductive PyErr where
  /-- `asyncio.TimeoutError` escaping `LLMManager.generate_json`. -/
  | timeoutError
  /-- any other exception raised by the completion service. -/
  | genError
  /-- `NameError`/`UnboundLocalError` (reading an unassigned local). -/
  | nameError
  /-- `AttributeError` (e.g. calling `.get` on a non-dict). -/
  | attributeError
  /-- `TypeError` (e.g. iterating over a non-iterable). -/
  | typeError
  /-- `IndexError` (string index out of range). -/
  | indexError
deriving DecidableEq

deriving instance DecidableEq for Except

/-- The straight apostrophe `'` (U+0027). -/
def aposC : Char := Char.ofNat 39

/-- The right single quotation mark (U+2019). -/
def rsqC : Char := Char.ofNat 8217

/-- The single low-9-ish quotation mark (U+201B) normalised by `_safe_json`. -/
def lsqC : Char := Char.ofNat 8219

/-- The left double quotation mark (U+201C). -/
def ldqC : Char := Char.ofNat 8220

/-- The right double quotation mark (U+201D). -/
def rdqC : Char := Char.ofNat 8221

/-- The backtick (U+0060). -/
def btickC : Char := Char.ofNat 96

/-- Python `str.isspace` / regex `\s` on the ASCII range:
space, tab, newline, carriage return, vertical tab, form feed. -/
def isPySpace (c : Char) : Bool :=
  c.toNat = 32 || c.toNat = 9 || c.toNat = 10 || c.toNat = 13 ||
  c.toNat = 11 || c.toNat = 12

/-- Python `str.isalnum` restricted to ASCII. -/
def isAlnumPy (c : Char) : Bool := c.isAlpha || c.isDigit

/-- Regex `\w` (word character) restricted to ASCII. -/
def isWordChar (c : Char) : Bool := isAlnumPy c || c = '_'

/-- Python slice `l[a:b]` (with the usual clamping). -/
def pySlice (l : List Char) (a b : Nat) : List Char := (l.take b).drop a

/-- Drop a trailing run of characters satisfying `p`. -/
def trimRightBy (p : Char → Bool) : List Char → List Char
  | [] => []
  | c :: rest =>
    match trimRightBy p rest with
    | [] => if p c then [] else [c]
    | r => c :: r

/-- Drop leading and trailing runs of characters satisfying `p`
(Python `str.strip` with a character class). -/
def trimBothBy (p : Char → Bool) (l : List Char) : List Char :=
  trimRightBy p (l.dropWhile p)

/-- Python `str.strip()` (no arguments). -/
def pyStrip (l : List Char) : List Char := trimBothBy isPySpace l

/-- Python `str.lower()` (ASCII). -/
def lowerL (l : List Char) : List Char := l.map Char.toLower

/-- Does `pat` occur at the head of `l`? -/
def startsWithL : List Char → List Char → Bool
  | [], _ => true
  | _ :: _, [] => false
  | p :: ps, c :: cs => p = c && startsWithL ps cs

/-- Does `pat` occur at the end of `l`? -/
def endsWithL (pat l : List Char) : Bool := startsWithL pat.reverse l.reverse

/-- Python `str.replace(pat, rep)` for a non-empty `pat`: left-to-right,
non-overlapping.  `fuel` bounds the recursion; each step consumes at least
one character, so callers pass the length of the scanned list. -/
def replaceAllF (pat rep : List Char) : Nat → List Char → List Char
  | _, [] => []
  | 0, l => l
  | fuel + 1, c :: rest =>
    if pat ≠ [] && startsWithL pat (c :: rest) then
      rep ++ replaceAllF pat rep fuel (List.drop (pat.length - 1) rest)
    else c :: replaceAllF pat rep fuel rest

/-- Python `str.replace(pat, rep)`. -/
def replaceAll (pat rep l : List Char) : List Char := replaceAllF pat rep l.length l

/-- Python `str.find(ch)`: index of the first occurrence, `none` for `-1`. -/
def findIdxCh (ch : Char) (l : List Char) : Option Nat :=
  l.findIdx? (fun c => c = ch)

/-- Python `str.rfind(ch)`: index of the last occurrence, `none` for `-1`. -/
def rfindIdxCh (ch : Char) (l : List Char) : Option Nat :=
  (l.reverse.findIdx? (fun c => c = ch)).map (fun i => l.length - 1 - i)

/-- Split into maximal runs of non-whitespace (Python `str.split()` /
`re.split(r"\s+", …)` with empty pieces discarded).  Fuel as in
`replaceAllF`. -/
def splitWsF : Nat → List Char → List (List Char)
  | _, [] => []
  | 0, l => [l]
  | fuel + 1, c :: rest =>
    if isPySpace c then splitWsF fuel (rest.dropWhile isPySpace)
    else
      let w := (c :: rest).takeWhile (fun d => !isPySpace d)
      w :: splitWsF fuel ((c :: rest).dropWhile (fun d => !isPySpace d))

/-- Python whitespace split (no empty pieces). -/
def splitWs (l : List Char) : List (List Char) := splitWsF l.length l

/-- Lexicographic comparison of strings by code point (Python `sorted`). -/
def leStr : List Char → List Char → Bool
  | [], _ => true
  | _ :: _, [] => false
  | a :: as', b :: bs =>
    if a.toNat < b.toNat then true
    else if b.toNat < a.toNat then false
    else leStr as' bs

/-- Insert into a `leStr`-sorted list. -/
def insertStr (x : List Char) : List (List Char) → List (List Char)
  | [] => [x]
  | y :: ys => if leStr x y then x :: y :: ys else y :: insertStr x ys

/-- Stable sort by `leStr` (Python `sorted` on distinct strings). -/
def sortStrs (l : List (List Char)) : List (List Char) := l.foldr insertStr []

/-- Add to a list modelling a Python `set` (membership-based, no duplicates). -/
def setAdd (l : List (List Char)) (x : List Char) : List (List Char) :=
  if x ∈ l then l else l ++ [x]

/-- Association-list lookup (Python `dict` access). -/
def alistFind {β : Type} : List (List Char × β) → List Char → Option β
  | [], _ => none
  | (k', v) :: r, k => if k' = k then some v else alistFind r k

/-- Pair-keyed association-list lookup. -/
def alistFindP {β : Type} :
    List ((List Char × List Char) × β) → (List Char × List Char) → Option β
  | [], _ => none
  | (k', v) :: r, k => if k' = k then some v else alistFindP r k

/-- Python `dict` assignment: overwrite in place if present, else append. -/
def alistUpsert {β : Type} : List (List Char × β) → List Char → β → List (List Char × β)
  | [], k, v => [(k, v)]
  | (k', v') :: r, k, v =>
    if k' = k then (k, v) :: r else (k', v') :: alistUpsert r k v

/-- Digit character for `n < 10`. -/
def digitChar10 (n : Nat) : Char := Char.ofNat (48 + n)

/-- Decimal digits of `n`, most significant first.  Fuel-driven so that the
kernel can evaluate it; `fuel > n` always suffices. -/
def toDecF : Nat → Nat → List Char
  | 0, _ => []
  | fuel + 1, n =>
    if n < 10 then [digitChar10 n]
    else toDecF fuel (n / 10) ++ [digitChar10 (n % 10)]

/-- Decimal representation of `n`. -/
def toDec (n : Nat) : List Char := toDecF (n + 1) n

/-- Python `f"{n:06d}"`: zero-pad the decimal form to width 6. -/
def pad6 (n : Nat) : List Char :=
  List.replicate (6 - (toDec n).length) '0' ++ toDec n

/-- The sequential entity id `f"ent_{counter:06d}"`. -/
def mkEntId (n : Nat) : List Char := "ent_".data ++ pad6 n

/-! ## Strict JSON (model of Python `json.loads`)

Values keep the shape `json.loads` produces: objects are insertion-ordered
key/value lists with later duplicate keys overwriting earlier ones, and
numbers keep their lexeme (no claim inspects numeric values). -/

/-- A parsed JSON value. -/
inductive JVal where
  | jnull : JVal
  | jbool : Bool → JVal
  | jnum : List Char → JVal
  | jstr : List Char → JVal
  | jarr : List JVal → JVal
  | jobj : List (List Char × JVal) → JVal

/-- JSON interelement whitespace. -/
def isJsonWs (c : Char) : Bool :=
  c = ' ' || c.toNat = 9 || c.toNat = 10 || c.toNat = 13

/-- Skip JSON whitespace. -/
def skipJWs (l : List Char) : List Char := l.dropWhile isJsonWs

/-- Hex digit value, if any. -/
def hexVal (c : Char) : Option Nat :=
  if '0' ≤ c ∧ c ≤ '9' then some (c.toNat - 48)
  else if 'a' ≤ c ∧ c ≤ 'f' then some (c.toNat - 87)
  else if 'A' ≤ c ∧ c ≤ 'F' then some (c.toNat - 55)
  else none

/-- Parse the body of a double-quoted JSON string (after the opening quote).
Escapes `\" \\ \/ \b \f \n \r \t \uXXXX` are honoured (`\uXXXX` as a single
code point; surrogate pairing is not modelled — no claim uses it); raw
control characters are rejected as by Python's strict parser.  Fuel as in
`replaceAllF`. -/
def parseJStrF : Nat → List Char → Option (List Char × List Char)
  | _, [] => none
  | 0, _ => none
  | fuel + 1, c :: rest =>
    if c = '"' then some ([], rest)
    else if c = '\\' then
      match rest with
      | [] => none
      | e :: rest2 =>
        let simple : Option Char :=
          if e = '"' then some '"'
          else if e = '\\' then some '\\'
          else if e = '/' then some '/'
          else if e = 'b' then some (Char.ofNat 8)
          else if e = 'f' then some (Char.ofNat 12)
          else if e = 'n' then some (Char.ofNat 10)
          else if e = 'r' then some (Char.ofNat 13)
          else if e = 't' then some (Char.ofNat 9)
          else none
        match simple with
        | some d =>
          match parseJStrF fuel rest2 with
          | some (s, r) => some (d :: s, r)
          | none => none
        | none =>
          if e = 'u' then
            match rest2 with
            | h1 :: h2 :: h3 :: h4 :: rest3 =>
              match hexVal h1, hexVal h2, hexVal h3, hexVal h4 with
              | some a, some b, some c', some d' =>
                let n := ((a * 16 + b) * 16 + c') * 16 + d'
                match parseJStrF fuel rest3 with
                | some (s, r) => some (Char.ofNat n :: s, r)
                | none => none
              | _, _, _, _ => none
            | _ => none
          else none
    else if c.toNat < 32 then none
    else
      match parseJStrF fuel rest with
      | some (s, r) => some (c :: s, r)
      | none => none

/-- String-body parse with sufficient fuel. -/
def parseJStr (l : List Char) : Option (List Char × List Char) :=
  parseJStrF l.length l

/-- One-or-more decimal digits. -/
def takeDigits1 (l : List Char) : Option (List Char × List Char) :=
  let ds := l.takeWhile Char.isDigit
  if ds = [] then none else some (ds, l.dropWhile Char.isDigit)

/-- Parse a JSON number lexeme, mirroring the scanner's regex
`(-?(?:0|[1-9]\d*))(\.\d+)?([eE][-+]?\d+)?`: a `0` integer part stops at the
zero, and a fractional part or exponent is taken only when complete. -/
def parseJNum (l : List Char) : Option (List Char × List Char) :=
  let (sign, l1) : List Char × List Char :=
    match l with
    | '-' :: r => (['-'], r)
    | _ => ([], l)
  let intPart : Option (List Char × List Char) :=
    match l1 with
    | '0' :: r => some (['0'], r)
    | _ => takeDigits1 l1
  match intPart with
  | none => none
  | some (int1, r1) =>
    let (frac, r2) : List Char × List Char :=
      match r1 with
      | '.' :: r1' =>
        match takeDigits1 r1' with
        | some (ds, r'') => ('.' :: ds, r'')
        | none => ([], r1)
      | _ => ([], r1)
    let (ex, r3) : List Char × List Char :=
      match r2 with
      | e :: r2' =>
        if e = 'e' ∨ e = 'E' then
          let (es, r2'') : List Char × List Char :=
            match r2' with
            | s :: r''' => if s = '+' ∨ s = '-' then ([s], r''') else ([], r2')
            | [] => ([], r2')
          match takeDigits1 r2'' with
          | some (ds, r4) => (e :: es ++ ds, r4)
          | none => ([], r2)
        else ([], r2)
      | [] => ([], r2)
    some (sign ++ int1 ++ frac ++ ex, r3)

/-- Insert into a JSON object under `json.loads` duplicate-key semantics:
a later key overwrites an earlier one, keeping the earlier position. -/
def jobjInsert (kvs : List (List Char × JVal)) (k : List Char) (v : JVal) :
    List (List Char × JVal) := alistUpsert kvs k v

mutual

/-- Parse one JSON value (leading whitespace allowed).  `fuel` bounds the
recursion depth; each recursive call consumes at least one character, so the
input length plus one always suffices. -/
def parseJVal : Nat → List Char → Option (JVal × List Char)
  | 0, _ => none
  | fuel + 1, l =>
    match skipJWs l with
    | [] => none
    | c :: rest =>
      if c = '"' then
        match parseJStr rest with
        | some (s, r) => some (JVal.jstr s, r)
        | none => none
      else if c = '[' then
        parseJArr fuel rest
      else if c = '{' then
        parseJObj fuel rest
      else if startsWithL "true".data (c :: rest) then
        some (JVal.jbool true, (c :: rest).drop 4)
      else if startsWithL "false".data (c :: rest) then
        some (JVal.jbool false, (c :: rest).drop 5)
      else if startsWithL "null".data (c :: rest) then
        some (JVal.jnull, (c :: rest).drop 4)
      else
        match parseJNum (c :: rest) with
        | some (lex, r) => some (JVal.jnum lex, r)
        | none => none

/-- Parse array elements after `[`. -/
def parseJArr : Nat → List Char → Option (JVal × List Char)
  | 0, _ => none
  | fuel + 1, l =>
    match skipJWs l with
    | ']' :: rest => some (JVal.jarr [], rest)
    | l' =>
      match parseJVal fuel l' with
      | none => none
      | some (v, r) => parseJArrRest fuel v [] r

/-- Parse `, value`* `]` after the first array element. -/
def parseJArrRest : Nat → JVal → List JVal → List Char → Option (JVal × List Char)
  | 0, _, _, _ => none
  | fuel + 1, v, acc, l =>
    match skipJWs l with
    | ']' :: rest => some (JVal.jarr ((acc ++ [v]).reverse.reverse), rest)
    | ',' :: rest =>
      match parseJVal fuel rest with
      | none => none
      | some (v', r) => parseJArrRest fuel v' (acc ++ [v]) r
    | _ => none

/-- Parse object members after `{`. -/
def parseJObj : Nat → List Char → Option (JVal × List Char)
  | 0, _ => none
  | fuel + 1, l =>
    match skipJWs l with
    | '}' :: rest => some (JVal.jobj [], rest)
    | '"' :: rest =>
      match parseJStr rest with
      | none => none
      | some (k, r) => parseJObjRest fuel k [] r
    | _ => none

/-- Parse `: value (, key : value)*` `}` after an object key. -/
def parseJObjRest : Nat → List Char → List (List Char × JVal) → List Char →
    Option (JVal × List Char)
  | 0, _, _, _ => none
  | fuel + 1, k, acc, l =>
    match skipJWs l with
    | ':' :: rest =>
      match parseJVal fuel rest with
      | none => none
      | some (v, r) =>
        match skipJWs r with
        | '}' :: r2 => some (JVal.jobj (jobjInsert acc k v), r2)
        | ',' :: r2 =>
          match skipJWs r2 with
          | '"' :: r3 =>
            match parseJStr r3 with
            | none => none
            | some (k', r4) => parseJObjRest fuel k' (jobjInsert acc k v) r4
          | _ => none
        | _ => none
    | _ => none

end

/-- Python `json.loads`: parse one value and require only trailing
whitespace. -/
def json_loads (l : List Char) : Option JVal :=
  match parseJVal (l.length + 1) l with
  | none => none
  | some (v, rest) => if skipJWs rest = [] then some v else none

/-! ## `FactExtractor._safe_json` (fact_extractor.py lines 300-346) -/

/-- Try to match `'(\w+)'\s*:` (the part of the key-rewrite pattern after the
one-character `pre` class).  Returns the key, the matched `\s*:` text and the
remainder after the match. -/
def matchKeyQuote (l : List Char) : Option (List Char × List Char × List Char) :=
  match l with
  | q :: r1 =>
    if q = aposC then
      let w := r1.takeWhile isWordChar
      let r2 := r1.dropWhile isWordChar
      if w = [] then none
      else
        match r2 with
        | q2 :: r3 =>
          if q2 = aposC then
            let ws := r3.takeWhile isPySpace
            let r4 := r3.dropWhile isPySpace
            match r4 with
            | ':' :: r5 => some (w, ws ++ [':'], r5)
            | _ => none
          else none
        | [] => none
    else none
  | [] => none

/-- `re.sub(r"(?P<pre>[\{,\s])'(?P<key>\w+)'(?P<post>\s*:)",
r'\g<pre>"\g<key>"\g<post>', s)`: left-to-right, non-overlapping; scanning
resumes after each match.  Fuel as in `replaceAllF`. -/
def subKeyQuotesF : Nat → List Char → List Char
  | _, [] => []
  | 0, l => l
  | fuel + 1, c :: rest =>
    if c = '{' || c = ',' || isPySpace c then
      match matchKeyQuote rest with
      | some (key, post, rest') =>
        c :: '"' :: (key ++ '"' :: post) ++ subKeyQuotesF fuel rest'
      | none => c :: subKeyQuotesF fuel rest
    else c :: subKeyQuotesF fuel rest

/-- The single-quoted-key rewrite (step 5a of `_safe_json`). -/
def subKeyQuotes (l : List Char) : List Char := subKeyQuotesF l.length l

/-- Escape embedded double quotes: `group.replace('"', '\\"')`. -/
def escDq (l : List Char) : List Char :=
  l.flatMap (fun d => if d = '"' then ['\\', '"'] else [d])

/-- Try to match `\s*'([^'\n]*)'` directly after a colon.  Returns the group
and the remainder. -/
def matchValQuote (l : List Char) : Option (List Char × List Char) :=
  let r1 := l.dropWhile isPySpace
  match r1 with
  | q :: r2 =>
    if q = aposC then
      let content := r2.takeWhile (fun d => !(d = aposC || d = '\n'))
      let r3 := r2.dropWhile (fun d => !(d = aposC || d = '\n'))
      match r3 with
      | q2 :: r4 => if q2 = aposC then some (content, r4) else none
      | [] => none
    else none
  | [] => none

/-- `re.sub(r":\s*\'([^\'\n]*)\'", lambda m: ':"{}"'.format(escaped), s)`:
note the replacement drops the whitespace after the colon.  Fuel as in
`replaceAllF`. -/
def subValQuotesF : Nat → List Char → List Char
  | _, [] => []
  | 0, l => l
  | fuel + 1, c :: rest =>
    if c = ':' then
      match matchValQuote rest with
      | some (content, rest') =>
        ':' :: '"' :: (escDq content ++ '"' :: subValQuotesF fuel rest')
      | none => c :: subValQuotesF fuel rest
    else c :: subValQuotesF fuel rest

/-- The single-quoted-value rewrite (step 5b of `_safe_json`). -/
def subValQuotes (l : List Char) : List Char := subValQuotesF l.length l

/-- Remainders after each double quote reachable from here without crossing a
newline (candidate closing quotes for a lazy `.*?"`), nearest first. -/
def quoteClosers : List Char → List (List Char)
  | [] => []
  | c :: rest =>
    if c = '"' then rest :: quoteClosers rest
    else if c = '\n' then []
    else quoteClosers rest

/-- Remainders after matching one list item `\s*".*?"\s*`, in the lazy
quantifier's preference order. -/
def itemCands (l : List Char) : List (List Char) :=
  let l1 := l.dropWhile isPySpace
  match l1 with
  | '"' :: r => (quoteClosers r).map (fun rem => rem.dropWhile isPySpace)
  | _ => []

/-- Remainders after matching `(?:,\s*".*?"\s*)*`, in the greedy star's
preference order (more repetitions first). -/
def starCands : Nat → List Char → List (List Char)
  | 0, l => [l]
  | fuel + 1, l =>
    (match l with
     | ',' :: r => (itemCands r).flatMap (starCands fuel)
     | _ => []) ++ [l]

/-- Length of the match of `\[(?:\s*\".*?\"\s*)(?:,\s*\".*?\"\s*)*\]` at the
head of `l`, if any, following the regex backtracking order. -/
def listMatchAt (l : List Char) : Option Nat :=
  match l with
  | '[' :: r =>
    ((itemCands r).flatMap (fun rem1 =>
      (starCands (l.length + 1) rem1).filterMap (fun rem2 =>
        match rem2 with
        | ']' :: rem3 => some (l.length - rem3.length)
        | _ => none))).head?
  | _ => none

/-- `re.search` for the bracketed-list pattern: leftmost match, returning
`m.group(0)`. -/
def searchListF : Nat → List Char → Option (List Char)
  | 0, _ => none
  | fuel + 1, l =>
    match listMatchAt l with
    | some n => some (l.take n)
    | none =>
      match l with
      | [] => none
      | _ :: r => searchListF fuel r

/-- Step 6 of `_safe_json`: search for a `["…", "…"]` list. -/
def searchList (l : List Char) : Option (List Char) := searchListF (l.length + 1) l

/-- `{"facts": []}`. -/
def factsEmptyJ : JVal := JVal.jobj [("facts".data, JVal.jarr [])]

/-- Normalise typographic quotes (step 3 of `_safe_json`). -/
def smartNorm (l : List Char) : List Char :=
  l.map (fun c =>
    if c = ldqC then '"'
    else if c = rdqC then '"'
    else if c = rsqC then aposC
    else if c = lsqC then aposC
    else c)

/-- `FactExtractor._safe_json`: the tolerant JSON recovery chain
(fence strip, brace extract, smart-quote normalise, strict parse,
quote-rewrite retry, list salvage, give-up). -/
def safe_json (text : List Char) : JVal :=
  if text = [] then factsEmptyJ
  else
    let s0 := pyStrip text
    let s1 := replaceAll "```json".data "```".data s0
    let s2 := replaceAll "```JSON".data "```".data s1
    let s3 :=
      if startsWithL "```".data s2 && endsWithL "```".data s2 then
        pyStrip (trimBothBy (fun c => c = btickC) s2)
      else s2
    let s4 :=
      match findIdxCh '{' s3, rfindIdxCh '}' s3 with
      | some a, some b => if a < b then pySlice s3 a (b + 1) else s3
      | _, _ => s3
    let s5 := smartNorm s4
    match json_loads s5 with
    | some v => v
    | none =>
      let t2 := subValQuotes (subKeyQuotes s5)
      match json_loads t2 with
      | some v => v
      | none =>
        match searchList s5 with
        | some g =>
          match json_loads g with
          | some arr => JVal.jobj [("facts".data, arr)]
          | none => factsEmptyJ
        | none => factsEmptyJ

/-! ## `FactExtractor` (fact_extractor.py)

`LLMManager.generate_json` is an external call; it is modelled as an oracle
`List Char → List Char → Except PyErr (List Char)` applied to the entity name
and the sentence (the prompt in
`_llm_extract_facts_for_sentence_async` is a pure function of exactly those
two strings).  A successful call returns the raw model text; a raising call
returns `Except.error` (`timeoutError` for `asyncio.TimeoutError`, which
`generate_json` re-raises after logging, and `genError` for anything else).

The optional legacy regex rules (`_facts_from_sentence_rules`, enabled only
when `rules_fallback` is true and off by default) produce facts whose
`sourceText` and evidence span are always those of the current sentence;
only their fact texts and confidences come from the regex library, so that
library is abstracted as the input function `ruleFacts` from
(name, sentence text, aliases) to (fact text, confidence) pairs. -/

/-- A sentence with its character span: the tuple
`(start, end, sentence_text)` of `_split_sentences_with_spans`. -/
structure Sent where
  start : Nat
  stop : Nat
  txt : List Char
deriving DecidableEq

/-- Worker for `_split_sentences_with_spans`: scan for `[.!?]` followed by
whitespace or end-of-string; each chunk is `text[start:end].strip()` and is
kept only if non-empty.  Fuel as in `replaceAllF`. -/
def splitSentF (full : List Char) : Nat → List Char → Nat → Nat → List Sent
  | _, [], _, start =>
    if start < full.length then
      let chunk := pyStrip (pySlice full start full.length)
      if chunk ≠ [] then [⟨start, full.length, chunk⟩] else []
    else []
  | 0, _, _, _ => []
  | fuel + 1, c :: r, pos, start =>
    if c = '.' || c = '!' || c = '?' then
      let wsn := (r.takeWhile isPySpace).length
      if wsn ≠ 0 || r.isEmpty then
        let e := pos + 1 + wsn
        let chunk := pyStrip (pySlice full start e)
        (if chunk ≠ [] then [⟨start, e, chunk⟩] else []) ++
          splitSentF full fuel (r.drop wsn) e e
      else splitSentF full fuel r (pos + 1) start
    else splitSentF full fuel r (pos + 1) start

/-- `FactExtractor._split_sentences_with_spans`. -/
def split_sentences_with_spans (text : List Char) : List Sent :=
  splitSentF text (text.length + 1) text 0 0

/-- Is the character at index `i` a word character (`\w`)?  Out-of-range
positions count as non-word. -/
def wordAt (s : List Char) (i : Nat) : Bool :=
  match s[i]? with
  | some c => isWordChar c
  | none => false

/-- Regex `\b` at position `i` of `s`: a word character on exactly one side. -/
def bAt (s : List Char) (i : Nat) : Bool :=
  xor (decide (i ≠ 0) && wordAt s (i - 1)) (wordAt s i)

/-- Case-insensitive literal match of variant `v` at position `i` of `s`. -/
def variantAt (s v : List Char) (i : Nat) : Bool :=
  decide (lowerL (pySlice s i (i + v.length)) = lowerL v)

/-- The optional possessive group `(?:'s|’s)` at position `j`
(case-insensitive, so `S` also matches). -/
def possAt (s : List Char) (j : Nat) : Bool :=
  (match s[j]? with
   | some c => c = aposC || c = rsqC
   | none => false) &&
  (match s[j + 1]? with
   | some c => c.toLower = 's'
   | none => false)

/-- The variant list of `FactExtractor._name_patterns`: the full name, the
last token when the name has several, and each non-empty alias that does not
case-insensitively equal the name. -/
def name_variants (name : List Char) (aliases : List (List Char)) : List (List Char) :=
  let parts := splitWs name
  [name] ++ (if 2 ≤ parts.length then [parts.getLastD []] else []) ++
    aliases.filter (fun a => !a.isEmpty && !(decide (lowerL a = lowerL name)))

/-- `name_re.search(s)` for the compiled pattern
`\b(?:variant|…)(?:'s|’s)?\b` with `re.IGNORECASE`: some variant matches at
some position with a word boundary before it and after the (optionally
possessive-extended) match. -/
def sent_matches_name (vs : List (List Char)) (s : List Char) : Bool :=
  (List.range (s.length + 1)).any (fun i =>
    vs.any (fun v =>
      variantAt s v i && bAt s i &&
      (bAt s (i + v.length) ||
        (possAt s (i + v.length) && bAt s (i + v.length + 2)))))

/-- `FactExtractor._find_mention_sentences`. -/
def find_mention_sentences (name : List Char) (sents : List Sent)
    (aliases : List (List Char)) : List Sent :=
  let vs := name_variants name aliases
  sents.filter (fun s => sent_matches_name vs s.txt)

/-- A fact record as built by `FactExtractor._mk_fact`. -/
structure FactR where
  fact : List Char
  sourceText : List Char
  evTimeId : List Char
  evStart : Nat
  evStop : Nat
  confidence : ℚ
  method : List Char
deriving DecidableEq

/-- `round(float(c), 3)`.  Python rounds half to even; on the confidences the
code passes (0.80 and the rule confidences 0.70–0.74) no tie arises, so
round-half-up is used: `⌊1000·q + 1/2⌋ / 1000`, computed on the numerator and
denominator so that the kernel can evaluate it. -/
def round3 (q : ℚ) : ℚ :=
  mkRat (Int.fdiv (2000 * q.num + q.den) (2 * q.den)) 1000

/-- `FactExtractor._mk_fact`. -/
def mk_fact (fact srcText : List Char) (s e : Nat) (tid : List Char)
    (conf : ℚ) (meth : List Char) : FactR :=
  ⟨fact, srcText, tid, s, e, round3 conf, meth⟩

/-- The comprehension
`[s.strip() for s in data.get("facts", []) if isinstance(s, str) and s.strip()]`
applied to the `_safe_json` result, with Python's dynamic behaviour: a
non-dict result has no `.get` (`AttributeError`); iterating a string yields
its characters, iterating a dict yields its keys, and iterating any other
facts value raises `TypeError`. -/
def factsFromData : JVal → Except PyErr (List (List Char))
  | JVal.jobj kvs =>
    match alistFind kvs "facts".data with
    | none => Except.ok []
    | some (JVal.jarr xs) =>
      Except.ok (xs.filterMap (fun v =>
        match v with
        | JVal.jstr s => if pyStrip s = [] then none else some (pyStrip s)
        | _ => none))
    | some (JVal.jstr cs) =>
      Except.ok (cs.filterMap (fun c => if isPySpace c then none else some [c]))
    | some (JVal.jobj kvs2) =>
      Except.ok ((kvs2.map Prod.fst).filterMap (fun k =>
        if pyStrip k = [] then none else some (pyStrip k)))
    | some _ => Except.error PyErr.typeError
  | _ => Except.error PyErr.attributeError

/-- The `FactExtractor` configuration (constructor arguments), with the
completion service as `llm` and the regex rule library abstracted as
`ruleFacts` (see the section comment). -/
structure FactExtractorM where
  llm : Option (List Char → List Char → Except PyErr (List Char))
  use_llm : Bool
  max_facts_per_entity : Nat
  rules_fallback : Bool
  ruleFacts : List Char → List Char → List (List Char) → List (List Char × ℚ)

/-- `FactExtractor._llm_extract_facts_for_sentence_async`: no extractor or
LLM disabled returns `[]` without calling; otherwise the oracle's raw text is
fed through `_safe_json` and the facts comprehension, and an oracle exception
propagates (there is no try/except in this method). -/
def llm_extract_facts_for_sentence (fe : FactExtractorM) (name sent : List Char) :
    Except PyErr (List (List Char)) :=
  match fe.llm, fe.use_llm with
  | some gen, true =>
    match gen name sent with
    | Except.error e => Except.error e
    | Except.ok raw => factsFromData (safe_json raw)
  | _, _ => Except.ok []

/-- An input entity dict as read by `extract_facts_for_entities`
(`ent.get("name", "")`, `ent.get("id")`, `ent.get("aliases") or []`). -/
structure EntityIn where
  name : List Char
  id : Option (List Char)
  aliases : List (List Char)
deriving DecidableEq

/-- A value of the returned dict: a fact list for an entity id, or the bare
debug string attached under `"__debug_raw_text"`. -/
inductive ResultVal where
  | facts : List FactR → ResultVal
  | raw : List Char → ResultVal
deriving DecidableEq

/-- The de-duplication key `(f["fact"].strip().lower(), start, end)`. -/
def factKey (f : FactR) : List Char × Nat × Nat :=
  (lowerL (pyStrip f.fact), f.evStart, f.evStop)

/-- First-occurrence de-duplication by `factKey` (the `uniq`/`seen` loop). -/
def dedupFacts : List FactR → List (List Char × Nat × Nat) → List FactR
  | [], _ => []
  | f :: r, seen =>
    if factKey f ∈ seen then dedupFacts r seen
    else f :: dedupFacts r (factKey f :: seen)

/-- The inner `for (start, end, sent_text) in mention_sents` loop: appends the
LLM facts (and rule facts when enabled and the LLM returned none), records
the last `llm_facts` value, and breaks once the accumulated facts reach
`max_facts_per_entity`.  An oracle exception propagates. -/
def mention_loop (fe : FactExtractorM) (name : List Char)
    (aliases : List (List Char)) (tid : List Char) :
    List Sent → List FactR → Option (List (List Char)) →
    Except PyErr (List FactR × Option (List (List Char)))
  | [], facts, last => Except.ok (facts, last)
  | m :: rest, facts, _last =>
    match llm_extract_facts_for_sentence fe name m.txt with
    | Except.error e => Except.error e
    | Except.ok lf =>
      let fs1 := facts ++
        lf.map (fun sf => mk_fact sf m.txt m.start m.stop tid (mkRat 80 100) "llm".data)
      let fs2 :=
        if fe.rules_fallback && lf.isEmpty then
          fs1 ++ (fe.ruleFacts name m.txt aliases).map
            (fun p => mk_fact p.1 m.txt m.start m.stop tid p.2 "rule".data)
        else fs1
      if fe.max_facts_per_entity ≤ fs2.length then Except.ok (fs2, some lf)
      else mention_loop fe name aliases tid rest fs2 (some lf)

/-- The outer `for ent in entities` loop.  The `llm_facts` local survives
across entities, so it is threaded through as `last`; `none` models the
variable never having been assigned. -/
def entities_loop (fe : FactExtractorM) (sents : List Sent) (tid : List Char) :
    List EntityIn → List (List Char × ResultVal) → Option (List (List Char)) →
    Except PyErr (List (List Char × ResultVal) × Option (List (List Char)))
  | [], res, last => Except.ok (res, last)
  | ent :: rest, res, last =>
    let name := pyStrip ent.name
    match ent.id with
    | none => entities_loop fe sents tid rest res last
    | some eid =>
      if name.isEmpty || eid.isEmpty then entities_loop fe sents tid rest res last
      else
        let mentions := find_mention_sentences name sents ent.aliases
        match mention_loop fe name ent.aliases tid mentions [] last with
        | Except.error e => Except.error e
        | Except.ok (facts, last') =>
          let uniq := dedupFacts facts []
          entities_loop fe sents tid rest
            (alistUpsert res eid (ResultVal.facts (uniq.take fe.max_facts_per_entity)))
            last'

/-- The dict key of the debug entry. -/
def debugKey : List Char := "__debug_raw_text".data

/-- `FactExtractor.extract_facts_for_entities`: splits the text, runs the
entity loop, then reads `llm_facts` one more time — a `NameError`
(`UnboundLocalError`) when no (entity, sentence) pair was processed — and
attaches `text[:300]` under `"__debug_raw_text"` when the last processed
sentence yielded no facts. -/
def extract_facts_for_entities (fe : FactExtractorM) (text : List Char)
    (entities : List EntityIn) (tid : List Char) :
    Except PyErr (List (List Char × ResultVal)) :=
  let sents := split_sentences_with_spans text
  match entities_loop fe sents tid entities [] none with
  | Except.error e => Except.error e
  | Except.ok (_, none) => Except.error PyErr.nameError
  | Except.ok (res, some lf) =>
    Except.ok
      (if lf.isEmpty then alistUpsert res debugKey (ResultVal.raw (text.take 300))
       else res)

/-! ## `NERExtractor` / `HybridNERExtractor` (ner_extractor.py)

The HuggingFace pipeline call is external; its output is the input
`List RawSpan` (one record per aggregated span, with the dict fields read via
`.get`).  `extract_entities` wraps its whole body in `try/except` and returns
`[]` on any exception; the only reachable exception in the body is the
`IndexError` from `_is_word_boundary` on an out-of-range span, modelled with
`Except`.

`HybridNERExtractor.extract_entities` additionally iterates
`re.finditer(pattern, text)` over the fixed `story_patterns` library.  The
claims about it quantify over all inputs and never depend on which strings
those fixed regexes produce, so the pattern pass takes the flattened list of
`(entity_type, match.group(0))` pairs, in iteration order (types in dict
order `character`, `object`, `location`, `event`; patterns in list order;
matches left to right), as an input. -/

/-- The `\b` test after the `s` of a possessive match: end of string or a
non-word character next. -/
def boundaryNext : List Char → Bool
  | [] => true
  | e :: _ => !isWordChar e

/-- One worker step of `re.sub(r"[’']s\b", "", …)`: remove every straight or
typographic apostrophe followed by a lowercase `s` at a word boundary
(scanning resumes after each removed match). -/
def possSub : List Char → List Char
  | [] => []
  | [c] => [c]
  | c :: d :: rest =>
    if (c = aposC || c = rsqC) && d = 's' && boundaryNext rest then
      possSub rest
    else c :: possSub (d :: rest)

/-- `_strip_possessive`: `re.sub(r"[’']s\b", "", name.strip())`. -/
def strip_possessive (name : List Char) : List Char := possSub (pyStrip name)

/-- Worker for `re.sub(r"\s+", " ", ...)`: the flag records whether the scan
is inside a whitespace run (whose first character already emitted the single
replacement space). -/
def collapseGo : Bool → List Char → List Char
  | _, [] => []
  | inRun, c :: rest =>
    if isPySpace c then
      if inRun then collapseGo true rest else ' ' :: collapseGo true rest
    else c :: collapseGo false rest

/-- `re.sub(r"\s+", " ", l)`: collapse each maximal whitespace run to one
space. -/
def collapseWs (l : List Char) : List Char := collapseGo false l

/-- `_normalize_name`: strip possessives, collapse whitespace, strip, lower. -/
def normalize_name (name : List Char) : List Char :=
  lowerL (pyStrip (collapseWs (strip_possessive name)))

/-- `_split_person_name` (tokens and lowercased last token; the particle flag
is never used by the resolver). -/
def split_person_name (name : List Char) : List (List Char) × List Char :=
  let toks := splitWs (pyStrip name)
  (toks, match toks.getLast? with
         | some t => lowerL t
         | none => [])

/-- `_is_word_boundary(text, start, end)` with Python's evaluation order:
both `left_ok` and `right_ok` are computed (each short-circuiting on the
index comparison), and an out-of-range subscript raises `IndexError`. -/
def is_word_boundary (text : List Char) (s e : Nat) : Except PyErr Bool :=
  match
    (if s = 0 then Except.ok true
     else match text[s - 1]? with
          | some c => Except.ok (!isAlnumPy c)
          | none => Except.error PyErr.indexError :
      Except PyErr Bool) with
  | Except.error err => Except.error err
  | Except.ok leftOk =>
    match
      (if e = text.length then Except.ok true
       else match text[e]? with
            | some c => Except.ok (!isAlnumPy c)
            | none => Except.error PyErr.indexError :
        Except PyErr Bool) with
    | Except.error err => Except.error err
    | Except.ok rightOk => Except.ok (leftOk && rightOk)

/-- One raw NER pipeline result dict (fields read with `.get`). -/
structure RawSpan where
  start : Option Nat
  stop : Option Nat
  word : Option (List Char)
  entity_group : Option (List Char)
  score : Option ℚ
deriving DecidableEq

/-- An entity record as built by the resolver.  `seenForms` models the
working `_seen_forms` set (cleared on finalisation, mirroring the `pop`). -/
structure Entity where
  id : List Char
  entityType : List Char
  name : List Char
  aliases : List (List Char)
  facts : List FactR
  firstMentionedAt : List Char
  lastUpdatedAt : List Char
  version : Nat
  confidence : ℚ
  seenForms : List (List Char)
deriving DecidableEq

/-- The `label_mapping` table. -/
def label_mapping : List (List Char × List Char) :=
  [("PER".data, "character".data),
   ("PERSON".data, "character".data),
   ("LOC".data, "location".data),
   ("LOCATION".data, "location".data),
   ("GPE".data, "location".data),
   ("FACILITY".data, "location".data),
   ("ORG".data, "organization".data),
   ("ORGANIZATION".data, "organization".data),
   ("PRODUCT".data, "object".data),
   ("ARTIFACT".data, "object".data),
   ("WEAPON".data, "object".data),
   ("EVENT".data, "event".data),
   ("MISC".data, "concept".data),
   ("NORP".data, "concept".data),
   ("LAW".data, "concept".data),
   ("LANGUAGE".data, "concept".data),
   ("WORK_OF_ART".data, "concept".data)]

/-- The de-dup state: insertion-ordered `by_key` dict and the id counter. -/
structure NerSt where
  byKey : List ((List Char × List Char) × Entity)
  counter : Nat

/-- Update the entity stored under `key` (in-place dict mutation). -/
def byKeyUpdate (byKey : List ((List Char × List Char) × Entity))
    (key : List Char × List Char) (f : Entity → Entity) :
    List ((List Char × List Char) × Entity) :=
  byKey.map (fun kv => if kv.1 = key then (kv.1, f kv.2) else kv)

/-- `by_key.pop(key, None)`. -/
def byKeyRemove (byKey : List ((List Char × List Char) × Entity))
    (key : List Char × List Char) : List ((List Char × List Char) × Entity) :=
  byKey.filter (fun kv => !(decide (kv.1 = key)))

/-- One iteration of the `for result in ner_results` loop: the early-skip
filters, label mapping, confidence threshold and keyed insert/merge. -/
def resolveStep (text tid : List Char) (st : NerSt) (r : RawSpan) :
    Except PyErr NerSt :=
  let entity_name :=
    match r.start, r.stop with
    | some s, some e => pyStrip (pySlice text s e)
    | _, _ => pyStrip (replaceAll "##".data [] (r.word.getD []))
  let raw_label := r.entity_group.getD "MISC".data
  let confidence := r.score.getD 0
  if entity_name.length < 2 then Except.ok st
  else if (pyStrip (entity_name.filter
      (fun c => !(c = '.' || c = ',' || c = '-')))).length < 2 then Except.ok st
  else
    match
      (match r.start, r.stop with
       | some s, some e => (is_word_boundary text s e).map (fun b => !b)
       | _, _ => Except.ok false : Except PyErr Bool) with
    | Except.error err => Except.error err
    | Except.ok true => Except.ok st
    | Except.ok false =>
      let normalized := normalize_name entity_name
      if normalized.length = 1 &&
          (match normalized with
           | c :: _ => c.isAlpha
           | [] => false) then Except.ok st
      else
        let entity_type := (alistFind label_mapping raw_label).getD "concept".data
        if confidence < mkRat 85 100 then Except.ok st
        else
          let key := (entity_type, normalized)
          match alistFindP st.byKey key with
          | none =>
            let nm := pyStrip (strip_possessive entity_name)
            Except.ok
              ⟨st.byKey ++
                [(key, ⟨mkEntId st.counter, entity_type, nm, [], [], tid, tid, 1,
                  confidence, [nm]⟩)],
                st.counter + 1⟩
          | some _ =>
            Except.ok
              ⟨byKeyUpdate st.byKey key (fun ent =>
                { ent with
                  seenForms := setAdd ent.seenForms (pyStrip (strip_possessive entity_name)),
                  confidence := if ent.confidence < confidence then confidence
                                else ent.confidence,
                  version := ent.version + 1,
                  lastUpdatedAt := tid }),
                st.counter⟩

/-- The `for result in ner_results` loop. -/
def nerFold (text tid : List Char) : List RawSpan → NerSt → Except PyErr NerSt
  | [], st => Except.ok st
  | r :: rest, st =>
    match resolveStep text tid st r with
    | Except.error err => Except.error err
    | Except.ok st' => nerFold text tid rest st'

/-- First surname pass: build `surname_index` (last name, lowercased, to the
`by_key` key whose entity name has the most whitespace tokens; first
encountered wins ties). -/
def surnameIndex (byKey : List ((List Char × List Char) × Entity)) :
    List (List Char × (List Char × List Char)) :=
  byKey.foldl
    (fun idx kv =>
      if kv.2.entityType ≠ "character".data then idx
      else
        let last := (split_person_name kv.2.name).2
        if last = [] then idx
        else
          match alistFind idx last with
          | none => idx ++ [(last, kv.1)]
          | some prevKey =>
            match alistFindP byKey prevKey with
            | some prevEnt =>
              if (splitWs prevEnt.name).length < (splitWs kv.2.name).length then
                alistUpsert idx last kv.1
              else idx
            | none => idx)
    []

/-- Second surname pass: merge each character entity whose surname indexes a
different canonical entity into that canonical entity and drop it.  The
iteration is over the `list(by_key.items())` snapshot; lookups and mutations
act on the current dict. -/
def surnameMerge (tid : List Char)
    (idx : List (List Char × (List Char × List Char))) :
    List ((List Char × List Char) × Entity) →
    List ((List Char × List Char) × Entity) →
    List ((List Char × List Char) × Entity)
  | [], byKey => byKey
  | kv :: rest, byKey =>
    if kv.2.entityType ≠ "character".data then surnameMerge tid idx rest byKey
    else
      let last := (split_person_name kv.2.name).2
      if last = [] then surnameMerge tid idx rest byKey
      else
        match alistFind idx last with
        | none => surnameMerge tid idx rest byKey
        | some canonicalKey =>
          if canonicalKey = kv.1 then surnameMerge tid idx rest byKey
          else
            match alistFindP byKey canonicalKey with
            | none => surnameMerge tid idx rest byKey
            | some _ =>
              let byKey' := byKeyUpdate byKey canonicalKey (fun canon =>
                { canon with
                  seenForms := (setAdd kv.2.seenForms kv.2.name).foldl setAdd canon.seenForms,
                  version := canon.version + 1,
                  lastUpdatedAt := tid,
                  confidence := if canon.confidence < kv.2.confidence
                                then kv.2.confidence else canon.confidence })
              surnameMerge tid idx rest (byKeyRemove byKey' kv.1)

/-- Finalisation: aliases are the sorted non-empty seen forms other than the
primary name; `_seen_forms` is popped. -/
def finalizeEntities (byKey : List ((List Char × List Char) × Entity)) :
    List Entity :=
  byKey.map (fun kv =>
    { kv.2 with
      aliases := sortStrs (kv.2.seenForms.filter
        (fun a => !a.isEmpty && !(decide (a = kv.2.name)))),
      seenForms := [] })

/-- `NERExtractor.extract_entities` applied to the pipeline output: any
exception in the body is caught and turns the whole result into `[]`. -/
def ner_extract_entities (spans : List RawSpan) (text tid : List Char) :
    List Entity :=
  match nerFold text tid spans ⟨[], 1⟩ with
  | Except.error _ => []
  | Except.ok st =>
    finalizeEntities (surnameMerge tid (surnameIndex st.byKey) st.byKey st.byKey)

/-- The pattern-addition loop of `HybridNERExtractor.extract_entities`,
folding over the flattened `(entity_type, match.group(0))` stream. -/
def hybridPatternFold (tid : List Char) :
    List (List Char × List Char) → List Entity →
    List (List Char × List Char) → Nat → List Entity
  | [], entities, _, _ => entities
  | (etype, m) :: rest, entities, nameset, counter =>
    let entity_name := pyStrip m
    let norm := normalize_name entity_name
    let key := (etype, norm)
    if key ∈ nameset then hybridPatternFold tid rest entities nameset counter
    else if norm.length < 2 then hybridPatternFold tid rest entities nameset counter
    else
      hybridPatternFold tid rest
        (entities ++
          [⟨mkEntId counter, etype, strip_possessive entity_name, [], [], tid, tid,
            1, mkRat 9 10, []⟩])
        (nameset ++ [key]) (counter + 1)

/-- `HybridNERExtractor.extract_entities`: the NER result (already de-duped)
plus pattern matches not already present under the same key, with ids
continuing from `len(entities) + 1`. -/
def hybrid_extract_entities (spans : List RawSpan) (text tid : List Char)
    (patternMatches : List (List Char × List Char)) : List Entity :=
  let entities := ner_extract_entities spans text tid
  let nameset := entities.map (fun e => (e.entityType, normalize_name e.name))
  hybridPatternFold tid patternMatches entities nameset (entities.length + 1)

/-! ## Definitions used to state the claims -/

/-- Decode decimal digits (inverse of `toDec`, used to show id injectivity). -/
def decodeDigits (l : List Char) : Nat :=
  l.foldl (fun a c => a * 10 + (c.toNat - 48)) 0

/-- A Boolean occurrence check for the pattern `[’']s\b` (used to reason
about `_strip_possessive`). -/
def hasPoss : List Char → Bool
  | [] => false
  | c :: rest =>
    ((c = aposC || c = rsqC) &&
      (match rest with
       | [] => false
       | d :: r2 => d = 's' && boundaryNext r2)) || hasPoss rest

/-- The de-duplication key of a resolved entity:
`(entityType, normalized name)`. -/
def entity_key (e : Entity) : List Char × List Char :=
  (e.entityType, normalize_name e.name)

/-- The candidate facts of one entity: the LLM facts of each of its mention
sentences, in sentence order, concatenated without cap or de-duplication
(used to state the cap-enforcement property). -/
def cand_facts_loop (fe : FactExtractorM) (name tid : List Char) :
    List Sent → Except PyErr (List FactR)
  | [] => Except.ok []
  | m :: rest =>
    match llm_extract_facts_for_sentence fe name m.txt with
    | Except.error e => Except.error e
    | Except.ok lf =>
      match cand_facts_loop fe name tid rest with
      | Except.error e => Except.error e
      | Except.ok fs =>
        Except.ok
          (lf.map (fun sf => mk_fact sf m.txt m.start m.stop tid (mkRat 80 100) "llm".data)
            ++ fs)

/-- All candidate facts of an entity over a text (see `cand_facts_loop`). -/
def entity_candidate_facts (fe : FactExtractorM) (text tid : List Char)
    (ent : EntityIn) : Except PyErr (List FactR) :=
  cand_facts_loop fe (pyStrip ent.name) tid
    (find_mention_sentences (pyStrip ent.name) (split_sentences_with_spans text)
      ent.aliases)

/-! ## Concrete instances used by witnesses and counterexamples -/

/-- An empty rule library (`rules_fallback` is off in every instance here). -/
def noRuleFacts : List Char → List Char → List (List Char) → List (List Char × ℚ) :=
  fun _ _ _ => []

/-- An oracle whose every call raises `asyncio.TimeoutError`. -/
def genTimeout : List Char → List Char → Except PyErr (List Char) :=
  fun _ _ => Except.error PyErr.timeoutError

/-- A `FactExtractor()` with the always-timeout completion service and the
constructor defaults (`use_llm=True`, `max_facts_per_entity=3`,
`rules_fallback=False`). -/
def feTimeout : FactExtractorM := ⟨some genTimeout, true, 3, false, noRuleFacts⟩

/-- An oracle that always returns the JSON text `{"facts": ["Bob ran."]}`. -/
def genBobFact : List Char → List Char → Except PyErr (List Char) :=
  fun _ _ => Except.ok "\x7b\"facts\": [\"Bob ran.\"]\x7d".data

/-- A default-configured extractor over `genBobFact`. -/
def feBob : FactExtractorM := ⟨some genBobFact, true, 3, false, noRuleFacts⟩

/-- An oracle that always returns unparseable text, so every sentence yields
zero facts. -/
def genNoJson : List Char → List Char → Except PyErr (List Char) :=
  fun _ _ => Except.ok "no json here".data

/-- A default-configured extractor over `genNoJson`. -/
def feNoJson : FactExtractorM := ⟨some genNoJson, true, 3, false, noRuleFacts⟩

/-- An oracle returning three facts for the sentence `Bob ran.` and two for
any other sentence (five candidates over the two-sentence text below). -/
def genFive : List Char → List Char → Except PyErr (List Char) :=
  fun _ s =>
    if s = "Bob ran.".data then
      Except.ok "\x7b\"facts\": [\"f one\", \"f two\", \"f three\"]\x7d".data
    else
      Except.ok "\x7b\"facts\": [\"f four\", \"f five\"]\x7d".data

/-- A default-configured extractor over `genFive`. -/
def feFive : FactExtractorM := ⟨some genFive, true, 3, false, noRuleFacts⟩

/-- The entity `Bob` with id `e1`. -/
def entBob : EntityIn := ⟨"Bob".data, some "e1".data, []⟩

/-- A two-sentence text; the first sentence's span `[0,9)` includes the
separating blank, so `text[0:9]` ends in a space. -/
def textBobs : String := "Bob ran. Bob sat."

/-- Text for the surname-merge scenario (full name first). -/
def textLvB : String := "Ludwig van Beethoven met Beethoven."

/-- NER span `Ludwig van Beethoven`, character, confidence 0.95. -/
def spanLvB : RawSpan := ⟨some 0, some 20, none, some "PER".data, some (mkRat 95 100)⟩

/-- NER span `Beethoven` at `[25,34)`, character, confidence 0.90. -/
def spanBeet : RawSpan := ⟨some 25, some 34, none, some "PER".data, some (mkRat 90 100)⟩

/-- Text for the id-collision scenario (surname form first, and a story
pattern match `the king` further on). -/
def textBeetKing : String := "Beethoven met Ludwig van Beethoven near the king."

/-- NER span `Beethoven` at `[0,9)`. -/
def spanBeet2 : RawSpan := ⟨some 0, some 9, none, some "PER".data, some (mkRat 90 100)⟩

/-- NER span `Ludwig van Beethoven` at `[14,34)`. -/
def spanLvB2 : RawSpan := ⟨some 14, some 34, none, some "PER".data, some (mkRat 95 100)⟩

/-- The story-pattern matches of `textBeetKing`: the character role pattern
`\bthe\s+(lighthouse\s+keeper|king|…)\b` matches `the king` and no other
pattern matches. -/
def patKing : List (List Char × List Char) := [("character".data, "the king".data)]

/-- Text containing the alphanumeric run `Continental`. -/
def textCont : String := "Continental"

/-- A span selecting `tal` inside `Continental` with high confidence. -/
def spanTal : RawSpan := ⟨some 8, some 11, none, some "ORG".data, some (mkRat 99 100)⟩

/-- The spec's first JSON-recovery example input. -/
def c2ex1 : String := "\x7b\"facts\": [\"A.\"]\x7d"

/-- The spec's second JSON-recovery example input (markdown-fenced,
single-quoted). -/
def c2ex2 : String := "```json\n\x7b\x27facts\x27: [\x27A.\x27]\x7d\n```"

/-- The spec's third JSON-recovery example input. -/
def c2ex3 : String := "no json here"

/-! ## Theorems -/

/-- C1, counterexample: with a completion service that raises a timeout on
every call, `extract_facts_for_entities` over a text with one mention
sentence does not return a map of empty fact lists — the timeout propagates
and the call raises. -/
theorem C1_counterexample :
    extract_facts_for_entities feTimeout textBobs.data [entBob] "t1".data =
      Except.error PyErr.timeoutError := by
  decide

/-- C2, counterexample: on the spec's second example
(` ```json\n{'facts': ['A.']}\n``` `) the recovery chain returns
`{"facts": []}`, not `{"facts": ["A."]}`: the value-rewrite regex only
retypes single-quoted strings after a colon, never inside a list. -/
theorem C2_counterexample :
    safe_json c2ex2.data = factsEmptyJ ∧
    safe_json c2ex2.data ≠
      JVal.jobj [("facts".data, JVal.jarr [JVal.jstr "A.".data])] := by
  refine ⟨rfl, ?_⟩
  intro h
  rw [show safe_json c2ex2.data = factsEmptyJ from rfl] at h
  simp [factsEmptyJ] at h

/-- C2, amended: `recoverJSON('{"facts": ["A."]}')` is `{"facts": ["A."]}`
and `recoverJSON("no json here")` is `{"facts": []}` as claimed, but the
markdown-fenced single-quoted example also returns `{"facts": []}`. -/
theorem C2_recovery_examples :
    safe_json c2ex1.data = JVal.jobj [("facts".data, JVal.jarr [JVal.jstr "A.".data])] ∧
    safe_json c2ex2.data = factsEmptyJ ∧
    safe_json c2ex3.data = factsEmptyJ :=
  ⟨rfl, rfl, rfl⟩

/-- C4: on the spans `Beethoven` (character, 0.90) and
`Ludwig van Beethoven` (character, 0.95) in one text, the resolver returns
exactly one character entity, named `Ludwig van Beethoven`, with confidence
0.95 and `Beethoven` among its aliases. -/
theorem C4_surname_merge :
    ner_extract_entities [spanLvB, spanBeet] textLvB.data "t1".data =
      [⟨"ent_000001".data, "character".data, "Ludwig van Beethoven".data,
        ["Beethoven".data], [], "t1".data, "t1".data, 2, mkRat 19 20, []⟩] := by
  decide

/-- C5, counterexample: a returned fact's `sourceText` is the *stripped*
sentence chunk, so when the sentence span `[0,9)` includes the separating
blank, `sourceText` (`"Bob ran."`) differs from `text[0:9]`
(`"Bob ran. "`). -/
theorem C5_counterexample :
    extract_facts_for_entities feBob textBobs.data [entBob] "t1".data =
      Except.ok [("e1".data, ResultVal.facts
        [⟨"Bob ran.".data, "Bob ran.".data, "t1".data, 0, 9, mkRat 4 5, "llm".data⟩,
         ⟨"Bob ran.".data, "Bob sat.".data, "t1".data, 9, 17, mkRat 4 5, "llm".data⟩])] ∧
    "Bob ran.".data ≠ pySlice textBobs.data 0 9 := by
  decide

/-- C8, counterexample: in hybrid mode the pattern-entity counter restarts at
`len(entities) + 1`, so after a surname merge dropped `ent_000001` the
surviving `ent_000002` collides with the first pattern entity's id — the
returned ids are not pairwise distinct. -/
theorem C8_counterexample :
    (hybrid_extract_entities [spanBeet2, spanLvB2] textBeetKing.data "t1".data
        patKing).map Entity.id =
      ["ent_000002".data, "ent_000002".data] ∧
    ¬ ((hybrid_extract_entities [spanBeet2, spanLvB2] textBeetKing.data "t1".data
        patKing).map Entity.id).Nodup := by
  decide

/-- Looking up the key just upserted returns the new value. -/
theorem alistFind_upsert_self {β : Type} (l : List (List Char × β)) (k : List Char)
    (v : β) : alistFind (alistUpsert l k v) k = some v := by
  induction l with
  | nil => simp [alistUpsert, alistFind]
  | cons kv r ih =>
    by_cases h : kv.1 = k
    · simp [alistUpsert, alistFind, h]
    · simp [alistUpsert, alistFind, h, ih]

/-- Upserting one key leaves other lookups unchanged. -/
theorem alistFind_upsert_ne {β : Type} (l : List (List Char × β)) (k k' : List Char)
    (v : β) (h : k' ≠ k) : alistFind (alistUpsert l k' v) k = alistFind l k := by
  induction l with
  | nil => simp [alistUpsert, alistFind, h]
  | cons kv r ih =>
    by_cases hk : kv.1 = k'
    · simp [alistUpsert, alistFind, hk, h]
    · simp [alistUpsert, alistFind, hk, ih]

/-- C9: whenever the entity loop finishes with the last processed sentence
having yielded zero LLM facts, the returned map carries the extra key
`__debug_raw_text` mapped to the first 300 characters of the input as a bare
string — the result is not a pure entityId-to-fact-list mapping. -/
theorem C9_debug_entry (fe : FactExtractorM) (text tid : List Char)
    (entities : List EntityIn) (res : List (List Char × ResultVal))
    (h : entities_loop fe (split_sentences_with_spans text) tid entities [] none =
      Except.ok (res, some [])) :
    extract_facts_for_entities fe text entities tid =
      Except.ok (alistUpsert res debugKey (ResultVal.raw (text.take 300))) ∧
    alistFind (alistUpsert res debugKey (ResultVal.raw (text.take 300))) debugKey =
      some (ResultVal.raw (text.take 300)) := by
  refine ⟨?_, alistFind_upsert_self _ _ _⟩
  simp [extract_facts_for_entities, h]

/-- C9 witness: with an oracle returning unparseable text, the two-sentence
run attaches the debug entry. -/
theorem C9_debug_entry_witness :
    extract_facts_for_entities feNoJson textBobs.data [entBob] "t1".data =
      Except.ok (alistUpsert [("e1".data, ResultVal.facts [])] debugKey
        (ResultVal.raw (textBobs.data.take 300))) ∧
    alistFind (alistUpsert [("e1".data, ResultVal.facts [])] debugKey
        (ResultVal.raw (textBobs.data.take 300))) debugKey =
      some (ResultVal.raw (textBobs.data.take 300)) :=
  C9_debug_entry feNoJson textBobs.data "t1".data [entBob]
    [("e1".data, ResultVal.facts [])] (by decide)

/-- C10: when no (entity, mention sentence) pair is processed — empty entity
list, no valid name/id, or no mention matches — `extract_facts_for_entities`
raises the unbound-local `NameError` on `llm_facts` instead of returning a
map of empty fact lists. -/
theorem C10_unbound_local (fe : FactExtractorM) (text tid : List Char)
    (entities : List EntityIn) (res : List (List Char × ResultVal))
    (h : entities_loop fe (split_sentences_with_spans text) tid entities [] none =
      Except.ok (res, none)) :
    extract_facts_for_entities fe text entities tid = Except.error PyErr.nameError := by
  simp [extract_facts_for_entities, h]

/-- C10 witness: the empty entity list processes no pair and raises. -/
theorem C10_unbound_local_witness :
    extract_facts_for_entities feBob textBobs.data [] "t1".data =
      Except.error PyErr.nameError :=
  C10_unbound_local feBob textBobs.data "t1".data [] [] (by decide)

/-- With the LLM enabled and an always-raising oracle, the per-sentence
extraction raises. -/
theorem llm_extract_raises (fe : FactExtractorM)
    (gen : List Char → List Char → Except PyErr (List Char)) (err : PyErr)
    (hllm : fe.llm = some gen) (huse : fe.use_llm = true)
    (hg : ∀ n s, gen n s = Except.error err) (name sent : List Char) :
    llm_extract_facts_for_sentence fe name sent = Except.error err := by
  simp [llm_extract_facts_for_sentence, hllm, huse, hg]

/-- Under an always-raising oracle the entity loop either propagates the
error at the first processed pair or finishes with `llm_facts` never
assigned. -/
theorem entities_loop_raises (fe : FactExtractorM)
    (gen : List Char → List Char → Except PyErr (List Char)) (err : PyErr)
    (hllm : fe.llm = some gen) (huse : fe.use_llm = true)
    (hg : ∀ n s, gen n s = Except.error err) (sents : List Sent) (tid : List Char) :
    ∀ (ents : List EntityIn) (res : List (List Char × ResultVal)),
      entities_loop fe sents tid ents res none = Except.error err ∨
      ∃ res', entities_loop fe sents tid ents res none = Except.ok (res', none) := by
  intro ents
  induction ents with
  | nil => exact fun res => Or.inr ⟨res, rfl⟩
  | cons ent rest ih =>
    intro res
    cases hid : ent.id with
    | none =>
      have heq : entities_loop fe sents tid (ent :: rest) res none =
          entities_loop fe sents tid rest res none := by
        simp [entities_loop, hid]
      rw [heq]; exact ih res
    | some eid =>
      by_cases hskip : (pyStrip ent.name).isEmpty || eid.isEmpty
      · have heq : entities_loop fe sents tid (ent :: rest) res none =
            entities_loop fe sents tid rest res none := by
          simp [entities_loop, hid, hskip]
        rw [heq]; exact ih res
      · cases hm : find_mention_sentences (pyStrip ent.name) sents ent.aliases with
        | nil =>
          have hml : mention_loop fe (pyStrip ent.name) ent.aliases tid [] [] none =
              Except.ok ([], none) := rfl
          have heq : entities_loop fe sents tid (ent :: rest) res none =
              entities_loop fe sents tid rest
                (alistUpsert res eid (ResultVal.facts
                  ((dedupFacts [] []).take fe.max_facts_per_entity))) none := by
            simp [entities_loop, hid, hskip, hm, hml]
          rw [heq]; exact ih _
        | cons m ms =>
          have hml : mention_loop fe (pyStrip ent.name) ent.aliases tid (m :: ms) [] none =
              Except.error err := by
            simp [mention_loop, llm_extract_raises fe gen err hllm huse hg]
          exact Or.inl (by simp [entities_loop, hid, hskip, hm, hml])

/-- C1, amended: if every completion-service call raises a timeout (and the
LLM path is enabled), `extract_facts_for_entities` raises — the first
timeout propagates when any (entity, sentence) pair is processed, and the
unbound-local `NameError` is raised otherwise; it never returns normally. -/
theorem C1_timeout_propagates (fe : FactExtractorM)
    (gen : List Char → List Char → Except PyErr (List Char))
    (hllm : fe.llm = some gen) (huse : fe.use_llm = true)
    (hto : ∀ n s, gen n s = Except.error PyErr.timeoutError)
    (text tid : List Char) (entities : List EntityIn) :
    extract_facts_for_entities fe text entities tid =
        Except.error PyErr.timeoutError ∨
    extract_facts_for_entities fe text entities tid =
        Except.error PyErr.nameError := by
  rcases entities_loop_raises fe gen PyErr.timeoutError hllm huse hto
      (split_sentences_with_spans text) tid entities [] with h | ⟨res', h⟩
  · exact Or.inl (by simp [extract_facts_for_entities, h])
  · exact Or.inr (by simp [extract_facts_for_entities, h])

/-- C1 witness: the always-timeout service over a matching entity. -/
theorem C1_timeout_propagates_witness :
    extract_facts_for_entities feTimeout textBobs.data [entBob] "t1".data =
        Except.error PyErr.timeoutError ∨
    extract_facts_for_entities feTimeout textBobs.data [entBob] "t1".data =
        Except.error PyErr.nameError :=
  C1_timeout_propagates feTimeout genTimeout rfl rfl (fun _ _ => rfl)
    textBobs.data "t1".data [entBob]

/-- A span whose offsets are present but not word-boundary-aligned is
skipped: the resolver state is unchanged, whatever the confidence. -/
theorem resolveStep_skip (text tid : List Char) (st : NerSt) (r : RawSpan)
    (s e : Nat) (hs : r.start = some s) (he : r.stop = some e)
    (hb : is_word_boundary text s e = Except.ok false) :
    resolveStep text tid st r = Except.ok st := by
  unfold resolveStep
  simp only [hs, he]
  rw [hb]
  simp only [Except.map]
  split
  · rfl
  · split
    · rfl
    · rfl

/-- `nerFold` over an appended list runs the two parts in sequence. -/
theorem nerFold_append (text tid : List Char) (l₁ l₂ : List RawSpan) :
    ∀ st : NerSt, nerFold text tid (l₁ ++ l₂) st =
      (match nerFold text tid l₁ st with
       | Except.error e => Except.error e
       | Except.ok st' => nerFold text tid l₂ st') := by
  induction l₁ with
  | nil => intro st; simp [nerFold]
  | cons r rest ih =>
    intro st
    cases h : resolveStep text tid st r with
    | error e => simp [nerFold, h]
    | ok st' => simp [nerFold, h, ih]

/-- C6: a span whose `[start, end)` boundaries do not align with word
boundaries in the source text is rejected regardless of confidence —
resolving with the span gives exactly the result of resolving without it. -/
theorem C6_boundary_reject (text tid : List Char) (pre post : List RawSpan)
    (r : RawSpan) (s e : Nat) (hs : r.start = some s) (he : r.stop = some e)
    (hb : is_word_boundary text s e = Except.ok false) :
    ner_extract_entities (pre ++ r :: post) text tid =
      ner_extract_entities (pre ++ post) text tid := by
  unfold ner_extract_entities
  rw [nerFold_append, nerFold_append]
  cases h1 : nerFold text tid pre ⟨[], 1⟩ with
  | error err => rfl
  | ok st' =>
    have hstep : nerFold text tid (r :: post) st' = nerFold text tid post st' := by
      simp [nerFold, resolveStep_skip text tid st' r s e hs he hb]
    simp only []
    rw [hstep]

/-- C6 witness: the span `tal` inside `Continental` (confidence 0.99) is
rejected. -/
theorem C6_boundary_reject_witness :
    is_word_boundary textCont.data 8 11 = Except.ok false ∧
    ner_extract_entities [spanTal] textCont.data "t1".data =
      ner_extract_entities [] textCont.data "t1".data :=
  ⟨by decide,
   C6_boundary_reject textCont.data "t1".data [] [] spanTal 8 11 rfl rfl (by decide)⟩

/-- Every sentence produced by the splitter stores exactly the stripped slice
of its span. -/
theorem splitSentF_txt (full : List Char) :
    ∀ (fuel : Nat) (rest : List Char) (pos start : Nat) (sen : Sent),
      sen ∈ splitSentF full fuel rest pos start →
      sen.txt = pyStrip (pySlice full sen.start sen.stop) := by
  intro fuel
  induction fuel with
  | zero =>
    intro rest pos start sen h
    cases rest with
    | nil =>
      simp only [splitSentF] at h
      split at h
      · split at h
        · rcases List.mem_singleton.mp h with rfl
          rfl
        · exact absurd h (List.not_mem_nil sen)
      · exact absurd h (List.not_mem_nil sen)
    | cons c r => simp [splitSentF] at h
  | succ fuel ih =>
    intro rest pos start sen h
    cases rest with
    | nil =>
      simp only [splitSentF] at h
      split at h
      · split at h
        · rcases List.mem_singleton.mp h with rfl
          rfl
        · exact absurd h (List.not_mem_nil sen)
      · exact absurd h (List.not_mem_nil sen)
    | cons c r =>
      simp only [splitSentF] at h
      split at h
      · split at h
        · rcases List.mem_append.mp h with h1 | h2
          · split at h1
            · rcases List.mem_singleton.mp h1 with rfl
              rfl
            · exact absurd h1 (List.not_mem_nil sen)
          · exact ih _ _ _ sen h2
        · exact ih _ _ _ sen h
      · exact ih _ _ _ sen h

/-- Specialisation to `split_sentences_with_spans`. -/
theorem split_sentences_txt (text : List Char) (sen : Sent)
    (h : sen ∈ split_sentences_with_spans text) :
    sen.txt = pyStrip (pySlice text sen.start sen.stop) :=
  splitSentF_txt text (text.length + 1) text 0 0 sen h

/-- De-duplication only keeps facts that were already present. -/
theorem dedupFacts_subset :
    ∀ (l : List FactR) (seen : List (List Char × Nat × Nat)) (f : FactR),
      f ∈ dedupFacts l seen → f ∈ l := by
  intro l
  induction l with
  | nil => intro seen f h; simp [dedupFacts] at h
  | cons g r ih =>
    intro seen f h
    simp only [dedupFacts] at h
    split at h
    · exact List.mem_cons_of_mem g (ih _ f h)
    · rcases List.mem_cons.mp h with rfl | h2
      · exact List.mem_cons_self f r
      · exact List.mem_cons_of_mem g (ih _ f h2)

/-- Members of an upserted dict are old members or the new pair. -/
theorem alistUpsert_mem {β : Type} :
    ∀ (l : List (List Char × β)) (k : List Char) (v : β) (p : List Char × β),
      p ∈ alistUpsert l k v → p ∈ l ∨ p = (k, v) := by
  intro l
  induction l with
  | nil => intro k v p h; simpa [alistUpsert] using h
  | cons kv r ih =>
    intro k v p h
    simp only [alistUpsert] at h
    split at h
    · rcases List.mem_cons.mp h with rfl | h2
      · exact Or.inr rfl
      · exact Or.inl (List.mem_cons_of_mem kv h2)
    · rcases List.mem_cons.mp h with rfl | h2
      · exact Or.inl (List.mem_cons_self _ _)
      · rcases ih k v p h2 with h3 | h3
        · exact Or.inl (List.mem_cons_of_mem kv h3)
        · exact Or.inr h3


/-- Facts accumulated by the inner sentence loop keep stripped-slice
provenance: each created fact copies the mention sentence's stripped text and
span. -/
theorem mention_loop_prov (fe : FactExtractorM) (name : List Char)
    (aliases : List (List Char)) (tid text : List Char) :
    ∀ (ms : List Sent) (acc : List FactR) (last : Option (List (List Char)))
      (fs : List FactR) (last' : Option (List (List Char))),
      (∀ m ∈ ms, m.txt = pyStrip (pySlice text m.start m.stop)) →
      (∀ f ∈ acc, f.sourceText = pyStrip (pySlice text f.evStart f.evStop)) →
      mention_loop fe name aliases tid ms acc last = Except.ok (fs, last') →
      ∀ f ∈ fs, f.sourceText = pyStrip (pySlice text f.evStart f.evStop) := by
  intro ms
  induction ms with
  | nil =>
    intro acc last fs last' _ hacc h
    simp only [mention_loop, Except.ok.injEq, Prod.mk.injEq] at h
    rcases h with ⟨rfl, rfl⟩
    exact hacc
  | cons m rest ih =>
    intro acc last fs last' hms hacc h
    simp only [mention_loop] at h
    cases hx : llm_extract_facts_for_sentence fe name m.txt with
    | error e => simp [hx] at h
    | ok lf =>
      simp only [hx] at h
      have hm := hms m (List.mem_cons_self m rest)
      have hPA : ∀ f ∈ acc ++
          List.map (fun sf => mk_fact sf m.txt m.start m.stop tid (mkRat 80 100) "llm".data) lf,
          f.sourceText = pyStrip (pySlice text f.evStart f.evStop) := by
        intro f hf
        rcases List.mem_append.mp hf with hf1 | hf2
        · exact hacc f hf1
        · rcases List.mem_map.mp hf2 with ⟨sf, _, rfl⟩
          simpa [mk_fact] using hm
      by_cases hrb : (fe.rules_fallback && lf.isEmpty) = true
      · rw [if_pos hrb] at h
        have hPB : ∀ f ∈ acc ++
            List.map (fun sf => mk_fact sf m.txt m.start m.stop tid (mkRat 80 100) "llm".data) lf ++
            List.map (fun q => mk_fact q.1 m.txt m.start m.stop tid q.2 "rule".data)
              (fe.ruleFacts name m.txt aliases),
            f.sourceText = pyStrip (pySlice text f.evStart f.evStop) := by
          intro f hf
          rcases List.mem_append.mp hf with hf1 | hf2
          · exact hPA f hf1
          · rcases List.mem_map.mp hf2 with ⟨q, _, rfl⟩
            simpa [mk_fact] using hm
        split at h
        · simp only [Except.ok.injEq, Prod.mk.injEq] at h
          rcases h with ⟨rfl, rfl⟩
          exact hPB
        · exact ih _ (some lf) fs last'
            (fun m' hm' => hms m' (List.mem_cons_of_mem m hm')) hPB h
      · rw [if_neg hrb] at h
        split at h
        · simp only [Except.ok.injEq, Prod.mk.injEq] at h
          rcases h with ⟨rfl, rfl⟩
          exact hPA
        · exact ih _ (some lf) fs last'
            (fun m' hm' => hms m' (List.mem_cons_of_mem m hm')) hPA h

/-- The entity loop preserves stripped-slice provenance of every fact list
in the result dict. -/
theorem entities_loop_prov (fe : FactExtractorM) (tid text : List Char) :
    ∀ (ents : List EntityIn) (res0 : List (List Char × ResultVal))
      (last0 : Option (List (List Char))) (res : List (List Char × ResultVal))
      (last' : Option (List (List Char))),
      (∀ p ∈ res0, ∀ fs, p.2 = ResultVal.facts fs →
        ∀ f ∈ fs, f.sourceText = pyStrip (pySlice text f.evStart f.evStop)) →
      entities_loop fe (split_sentences_with_spans text) tid ents res0 last0 =
        Except.ok (res, last') →
      ∀ p ∈ res, ∀ fs, p.2 = ResultVal.facts fs →
        ∀ f ∈ fs, f.sourceText = pyStrip (pySlice text f.evStart f.evStop) := by
  intro ents
  induction ents with
  | nil =>
    intro res0 last0 res last' hres0 h
    simp only [entities_loop, Except.ok.injEq, Prod.mk.injEq] at h
    rcases h with ⟨rfl, rfl⟩
    exact hres0
  | cons ent rest ih =>
    intro res0 last0 res last' hres0 h
    simp only [entities_loop] at h
    cases hid : ent.id with
    | none =>
      simp only [hid] at h
      exact ih res0 last0 res last' hres0 h
    | some eid =>
      simp only [hid] at h
      by_cases hskip : (pyStrip ent.name).isEmpty || eid.isEmpty
      · rw [if_pos hskip] at h
        exact ih res0 last0 res last' hres0 h
      · rw [if_neg hskip] at h
        cases hml : mention_loop fe (pyStrip ent.name) ent.aliases tid
            (find_mention_sentences (pyStrip ent.name)
              (split_sentences_with_spans text) ent.aliases) [] last0 with
        | error e => simp [hml] at h
        | ok pr =>
          rcases pr with ⟨facts, last1⟩
          simp only [hml] at h
          have hfacts : ∀ f ∈ facts,
              f.sourceText = pyStrip (pySlice text f.evStart f.evStop) := by
            refine mention_loop_prov fe (pyStrip ent.name) ent.aliases tid text _ []
              last0 facts last1 ?_ (by intro f hf; simp at hf) hml
            intro m hm
            exact split_sentences_txt text m
              (List.mem_of_mem_filter hm)
          refine ih _ last1 res last' ?_ h
          intro p hp fs hfs f hf
          rcases alistUpsert_mem _ _ _ p hp with hmem | rfl
          · exact hres0 p hmem fs hfs f hf
          · simp only [ResultVal.facts.injEq] at hfs
            subst hfs
            exact hfacts f (dedupFacts_subset _ _ f (List.take_subset _ _ hf))

/-- C5, amended: for every run that returns, every returned fact's
`sourceText` equals the *stripped* slice
`text[evidence.start:evidence.end].strip()` of the original input. -/
theorem C5_provenance (fe : FactExtractorM) (text tid : List Char)
    (entities : List EntityIn) (res : List (List Char × ResultVal))
    (h : extract_facts_for_entities fe text entities tid = Except.ok res) :
    ∀ p ∈ res, ∀ fs, p.2 = ResultVal.facts fs →
      ∀ f ∈ fs, f.sourceText = pyStrip (pySlice text f.evStart f.evStop) := by
  unfold extract_facts_for_entities at h
  cases hloop : entities_loop fe (split_sentences_with_spans text) tid entities [] none with
  | error e => simp [hloop] at h
  | ok pr =>
    rcases pr with ⟨res1, last1⟩
    simp only [hloop] at h
    have hres1 : ∀ p ∈ res1, ∀ fs, p.2 = ResultVal.facts fs →
        ∀ f ∈ fs, f.sourceText = pyStrip (pySlice text f.evStart f.evStop) := by
      cases last1 with
      | none => simp at h
      | some lf =>
        exact entities_loop_prov fe tid text entities [] none res1 (some lf)
          (by intro p hp; simp at hp) hloop
    cases last1 with
    | none => simp at h
    | some lf =>
      simp only at h
      by_cases hlf : lf.isEmpty
      · rw [if_pos hlf] at h
        simp only [Except.ok.injEq] at h
        subst h
        intro p hp fs hfs f hf
        rcases alistUpsert_mem _ _ _ p hp with hmem | rfl
        · exact hres1 p hmem fs hfs f hf
        · simp at hfs
      · rw [if_neg hlf] at h
        simp only [Except.ok.injEq] at h
        subst h
        exact hres1

/-- C5 witness: in the concrete two-sentence run, the first returned fact
satisfies stripped-slice provenance. -/
theorem C5_provenance_witness :
    extract_facts_for_entities feBob textBobs.data [entBob] "t1".data =
      Except.ok [("e1".data, ResultVal.facts
        [⟨"Bob ran.".data, "Bob ran.".data, "t1".data, 0, 9, mkRat 4 5, "llm".data⟩,
         ⟨"Bob ran.".data, "Bob sat.".data, "t1".data, 9, 17, mkRat 4 5, "llm".data⟩])] ∧
    FactR.sourceText
        ⟨"Bob ran.".data, "Bob ran.".data, "t1".data, 0, 9, mkRat 4 5, "llm".data⟩ =
      pyStrip (pySlice textBobs.data 0 9) :=
  ⟨by decide,
   C5_provenance feBob textBobs.data "t1".data [entBob]
    [("e1".data, ResultVal.facts
        [⟨"Bob ran.".data, "Bob ran.".data, "t1".data, 0, 9, mkRat 4 5, "llm".data⟩,
         ⟨"Bob ran.".data, "Bob sat.".data, "t1".data, 9, 17, mkRat 4 5, "llm".data⟩])]
    (by decide)
    ("e1".data, ResultVal.facts
        [⟨"Bob ran.".data, "Bob ran.".data, "t1".data, 0, 9, mkRat 4 5, "llm".data⟩,
         ⟨"Bob ran.".data, "Bob sat.".data, "t1".data, 9, 17, mkRat 4 5, "llm".data⟩])
    (List.mem_singleton.mpr rfl)
    [⟨"Bob ran.".data, "Bob ran.".data, "t1".data, 0, 9, mkRat 4 5, "llm".data⟩,
     ⟨"Bob ran.".data, "Bob sat.".data, "t1".data, 9, 17, mkRat 4 5, "llm".data⟩]
    rfl
    ⟨"Bob ran.".data, "Bob ran.".data, "t1".data, 0, 9, mkRat 4 5, "llm".data⟩
    (List.mem_cons_self _ _)⟩

/-- With the rules fallback off, the inner loop accumulates exactly a prefix
of the entity's candidate facts, stopping only at the cap or at the end. -/
theorem mention_loop_prefix (fe : FactExtractorM) (hrb : fe.rules_fallback = false)
    (name : List Char) (aliases : List (List Char)) (tid : List Char) :
    ∀ (ms : List Sent) (acc : List FactR) (last : Option (List (List Char)))
      (cands fs : List FactR) (last' : Option (List (List Char))),
      cand_facts_loop fe name tid ms = Except.ok cands →
      mention_loop fe name aliases tid ms acc last = Except.ok (fs, last') →
      ∃ pre suf, cands = pre ++ suf ∧ fs = acc ++ pre ∧
        (suf = [] ∨ fe.max_facts_per_entity ≤ fs.length) := by
  intro ms
  induction ms with
  | nil =>
    intro acc last cands fs last' hc h
    simp only [cand_facts_loop, Except.ok.injEq] at hc
    simp only [mention_loop, Except.ok.injEq, Prod.mk.injEq] at h
    rcases h with ⟨rfl, rfl⟩
    exact ⟨[], [], by simp [hc.symm], by simp, Or.inl rfl⟩
  | cons m rest ih =>
    intro acc last cands fs last' hc h
    simp only [cand_facts_loop] at hc
    simp only [mention_loop] at h
    cases hx : llm_extract_facts_for_sentence fe name m.txt with
    | error e => simp [hx] at hc
    | ok lf =>
      simp only [hx] at hc h
      cases hrest : cand_facts_loop fe name tid rest with
      | error e => simp [hrest] at hc
      | ok cands' =>
        simp only [hrest, Except.ok.injEq] at hc
        rw [hrb] at h
        simp only [Bool.false_and, if_neg (by simp : ¬(false = true))] at h
        split at h
        · simp only [Except.ok.injEq, Prod.mk.injEq] at h
          rcases h with ⟨rfl, rfl⟩
          refine ⟨List.map (fun sf =>
            mk_fact sf m.txt m.start m.stop tid (mkRat 80 100) "llm".data) lf, cands',
            hc.symm, rfl, Or.inr (by assumption)⟩
        · rcases ih _ (some lf) cands' fs last' hrest h with ⟨pre', suf', hco, hfs, hdisj⟩
          refine ⟨List.map (fun sf =>
            mk_fact sf m.txt m.start m.stop tid (mkRat 80 100) "llm".data) lf ++ pre',
            suf', ?_, ?_, hdisj⟩
          · rw [hc.symm, hco, List.append_assoc]
          · rw [hfs, List.append_assoc]

/-- De-duplication is the identity on a list with pairwise distinct keys none
of which was already seen. -/
theorem dedupFacts_id :
    ∀ (l : List FactR) (seen : List (List Char × Nat × Nat)),
      (l.map factKey).Nodup → (∀ f ∈ l, factKey f ∉ seen) →
      dedupFacts l seen = l := by
  intro l
  induction l with
  | nil => intro seen _ _; rfl
  | cons f r ih =>
    intro seen hnd hseen
    simp only [List.map_cons, List.nodup_cons] at hnd
    have hnotin : factKey f ∉ seen := hseen f (List.mem_cons_self f r)
    simp only [dedupFacts, if_neg hnotin]
    rw [ih (factKey f :: seen) hnd.2]
    intro g hg
    simp only [List.mem_cons]
    push_neg
    constructor
    · intro hgf
      exact hnd.1 (hgf ▸ List.mem_map_of_mem factKey hg)
    · exact hseen g (List.mem_cons_of_mem f hg)

/-- The entity loop records, under the id of a uniquely-identified entity,
the capped de-duplicated facts of some successful inner-loop run for that
entity. -/
theorem entities_loop_find (fe : FactExtractorM) (sents : List Sent)
    (tid : List Char) (ent : EntityIn) (eid : List Char)
    (hidv : ent.id = some eid) (hname : (pyStrip ent.name).isEmpty = false)
    (heid : eid.isEmpty = false) :
    ∀ (ents : List EntityIn) (res0 : List (List Char × ResultVal))
      (last0 : Option (List (List Char))) (res : List (List Char × ResultVal))
      (last' : Option (List (List Char))),
      entities_loop fe sents tid ents res0 last0 = Except.ok (res, last') →
      (∀ e' ∈ ents, e'.id = some eid → e' = ent) →
      (ent ∈ ents ∨
        ∃ factsE l0 l1,
          mention_loop fe (pyStrip ent.name) ent.aliases tid
            (find_mention_sentences (pyStrip ent.name) sents ent.aliases) [] l0 =
            Except.ok (factsE, l1) ∧
          alistFind res0 eid =
            some (ResultVal.facts
              ((dedupFacts factsE []).take fe.max_facts_per_entity))) →
      ∃ factsE l0 l1,
        mention_loop fe (pyStrip ent.name) ent.aliases tid
          (find_mention_sentences (pyStrip ent.name) sents ent.aliases) [] l0 =
          Except.ok (factsE, l1) ∧
        alistFind res eid =
          some (ResultVal.facts
            ((dedupFacts factsE []).take fe.max_facts_per_entity)) := by
  intro ents
  induction ents with
  | nil =>
    intro res0 last0 res last' h _ hst
    simp only [entities_loop, Except.ok.injEq, Prod.mk.injEq] at h
    rcases h with ⟨rfl, rfl⟩
    rcases hst with hst | hst
    · exact absurd hst (List.not_mem_nil ent)
    · exact hst
  | cons e rest ih =>
    intro res0 last0 res last' h huni hst
    simp only [entities_loop] at h
    have hrest_uni : ∀ e' ∈ rest, e'.id = some eid → e' = ent :=
      fun e' he' => huni e' (List.mem_cons_of_mem e he')
    cases hide : e.id with
    | none =>
      simp only [hide] at h
      have hne : e ≠ ent := by
        intro hcontra
        rw [hcontra, hidv] at hide
        exact Option.noConfusion hide
      refine ih res0 last0 res last' h hrest_uni ?_
      rcases hst with hst | hst
      · rcases List.mem_cons.mp hst with hst1 | hst2
        · exact absurd hst1.symm hne
        · exact Or.inl hst2
      · exact Or.inr hst
    | some eid2 =>
      simp only [hide] at h
      by_cases hskip : (pyStrip e.name).isEmpty || eid2.isEmpty
      · rw [if_pos hskip] at h
        have hne : e ≠ ent := by
          intro hcontra
          subst hcontra
          rw [hidv] at hide
          have heq : eid2 = eid := (Option.some.inj hide).symm
          subst heq
          rw [hname, heid] at hskip
          simp at hskip
        refine ih res0 last0 res last' h hrest_uni ?_
        rcases hst with hst | hst
        · rcases List.mem_cons.mp hst with hst1 | hst2
          · exact absurd hst1.symm hne
          · exact Or.inl hst2
        · exact Or.inr hst
      · rw [if_neg hskip] at h
        cases hml : mention_loop fe (pyStrip e.name) e.aliases tid
            (find_mention_sentences (pyStrip e.name) sents e.aliases) [] last0 with
        | error err => simp [hml] at h
        | ok pr =>
          rcases pr with ⟨factsE', last1⟩
          simp only [hml] at h
          by_cases heq : eid2 = eid
          · subst heq
            have hee : e = ent := huni e (List.mem_cons_self e rest) hide
            subst hee
            refine ih _ last1 res last' h hrest_uni (Or.inr ?_)
            exact ⟨factsE', last0, last1, hml,
              alistFind_upsert_self res0 eid2 _⟩
          · have hne : e ≠ ent := by
              intro hcontra
              subst hcontra
              rw [hidv] at hide
              exact heq (Option.some.inj hide).symm
            refine ih _ last1 res last' h hrest_uni ?_
            rcases hst with hst | hst
            · rcases List.mem_cons.mp hst with hst1 | hst2
              · exact absurd hst1.symm hne
              · exact Or.inl hst2
            · rcases hst with ⟨factsE, l0, l1, hml0, hfind⟩
              exact Or.inr ⟨factsE, l0, l1, hml0,
                (alistFind_upsert_ne res0 eid eid2 _ heq).trans hfind⟩

/-- C7: with `max_facts_per_entity = 3` (and the rules fallback at its
default off), an entity whose mention sentences yield 5 candidate facts with
pairwise distinct de-dup keys gets exactly 3 facts — the first 3 candidates
in source-sentence order; accumulation stops at the cap. -/
theorem C7_cap_enforcement (fe : FactExtractorM) (text tid : List Char)
    (entities : List EntityIn) (ent : EntityIn) (eid : List Char)
    (cands : List FactR) (res : List (List Char × ResultVal))
    (hrb : fe.rules_fallback = false) (hcap : fe.max_facts_per_entity = 3)
    (hid : ent.id = some eid) (hname : (pyStrip ent.name).isEmpty = false)
    (heid : eid.isEmpty = false) (hdbg : eid ≠ debugKey)
    (hmem : ent ∈ entities)
    (huni : ∀ e' ∈ entities, e'.id = some eid → e' = ent)
    (hcands : entity_candidate_facts fe text tid ent = Except.ok cands)
    (hlen : cands.length = 5) (hkeys : (cands.map factKey).Nodup)
    (hrun : extract_facts_for_entities fe text entities tid = Except.ok res) :
    alistFind res eid = some (ResultVal.facts (cands.take 3)) ∧
    (cands.take 3).length = 3 := by
  have hcands' : cand_facts_loop fe (pyStrip ent.name) tid
      (find_mention_sentences (pyStrip ent.name) (split_sentences_with_spans text)
        ent.aliases) = Except.ok cands := hcands
  unfold extract_facts_for_entities at hrun
  cases hloop : entities_loop fe (split_sentences_with_spans text) tid entities [] none with
  | error e => simp [hloop] at hrun
  | ok pr =>
    rcases pr with ⟨res1, last1⟩
    simp only [hloop] at hrun
    cases last1 with
    | none => simp at hrun
    | some lf =>
      obtain ⟨factsE, l0, l1, hml, hfind⟩ :=
        entities_loop_find fe (split_sentences_with_spans text) tid ent eid hid
          hname heid entities [] none res1 (some lf) hloop huni (Or.inl hmem)
      obtain ⟨pre, suf, hco, hfs, hdisj⟩ :=
        mention_loop_prefix fe hrb (pyStrip ent.name) ent.aliases tid
          (find_mention_sentences (pyStrip ent.name) (split_sentences_with_spans text)
            ent.aliases) [] l0 cands factsE l1 hcands' hml
    -- factsE is the prefix `pre` of the candidates
      simp only [List.nil_append] at hfs
      have hpre3 : 3 ≤ pre.length := by
        rcases hdisj with rfl | hge
        · have h5 : cands.length = pre.length := by rw [hco]; simp
          omega
        · rw [hcap, hfs] at hge
          omega
      have hnd : (factsE.map factKey).Nodup := by
        rw [hfs]
        rw [hco, List.map_append] at hkeys
        exact hkeys.of_append_left
      have hded : dedupFacts factsE [] = factsE :=
        dedupFacts_id factsE [] hnd (by intro f _; exact List.not_mem_nil _)
      have htake : factsE.take 3 = cands.take 3 := by
        rw [hfs, hco]
        exact (List.take_append_of_le_length hpre3).symm
      have hfind3 : alistFind res1 eid = some (ResultVal.facts (cands.take 3)) := by
        rw [hfind, hded, hcap, htake]
      constructor
      · simp only at hrun
        by_cases hlf : lf.isEmpty
        · rw [if_pos hlf] at hrun
          simp only [Except.ok.injEq] at hrun
          subst hrun
          rw [alistFind_upsert_ne res1 eid debugKey _ (Ne.symm hdbg)]
          exact hfind3
        · rw [if_neg hlf] at hrun
          simp only [Except.ok.injEq] at hrun
          subst hrun
          exact hfind3
      · simp [List.length_take, hlen]

/-- C7 witness: over `genFive` the entity `Bob` has five distinct candidate
facts (three from the first sentence, two from the second) and receives
exactly the first three. -/
theorem C7_cap_enforcement_witness :
    alistFind [("e1".data, ResultVal.facts
        [⟨"f one".data, "Bob ran.".data, "t1".data, 0, 9, mkRat 4 5, "llm".data⟩,
         ⟨"f two".data, "Bob ran.".data, "t1".data, 0, 9, mkRat 4 5, "llm".data⟩,
         ⟨"f three".data, "Bob ran.".data, "t1".data, 0, 9, mkRat 4 5, "llm".data⟩])]
      "e1".data =
      some (ResultVal.facts
        ([⟨"f one".data, "Bob ran.".data, "t1".data, 0, 9, mkRat 4 5, "llm".data⟩,
          ⟨"f two".data, "Bob ran.".data, "t1".data, 0, 9, mkRat 4 5, "llm".data⟩,
          ⟨"f three".data, "Bob ran.".data, "t1".data, 0, 9, mkRat 4 5, "llm".data⟩,
          ⟨"f four".data, "Bob sat.".data, "t1".data, 9, 17, mkRat 4 5, "llm".data⟩,
          ⟨"f five".data, "Bob sat.".data, "t1".data, 9, 17, mkRat 4 5, "llm".data⟩].take 3)) ∧
    (([⟨"f one".data, "Bob ran.".data, "t1".data, 0, 9, mkRat 4 5, "llm".data⟩,
      ⟨"f two".data, "Bob ran.".data, "t1".data, 0, 9, mkRat 4 5, "llm".data⟩,
      ⟨"f three".data, "Bob ran.".data, "t1".data, 0, 9, mkRat 4 5, "llm".data⟩,
      ⟨"f four".data, "Bob sat.".data, "t1".data, 9, 17, mkRat 4 5, "llm".data⟩,
      ⟨"f five".data, "Bob sat.".data, "t1".data, 9, 17, mkRat 4 5, "llm".data⟩] :
        List FactR).take 3).length = 3 :=
  C7_cap_enforcement feFive textBobs.data "t1".data [entBob] entBob "e1".data
    _ _ rfl rfl rfl (by decide) (by decide) (by decide) (by decide)
    (by decide) (by decide) (by decide) (by decide) (by decide)


/-- Characters with equal code points are equal. -/
theorem char_eq_of_toNat {c d : Char} (h : c.toNat = d.toNat) : c = d := by
  apply Char.ext
  apply UInt32.ext
  exact h

/-- Whitespace is never a word character. -/
theorem space_not_word (c : Char) (h : isPySpace c = true) : isWordChar c = false := by
  simp only [isPySpace, Bool.or_eq_true, decide_eq_true_eq] at h
  rcases h with ((((h | h) | h) | h) | h) | h
  · have hc : c = Char.ofNat 32 := char_eq_of_toNat (by rw [h]; rfl)
    subst hc; decide
  · have hc : c = Char.ofNat 9 := char_eq_of_toNat (by rw [h]; rfl)
    subst hc; decide
  · have hc : c = Char.ofNat 10 := char_eq_of_toNat (by rw [h]; rfl)
    subst hc; decide
  · have hc : c = Char.ofNat 13 := char_eq_of_toNat (by rw [h]; rfl)
    subst hc; decide
  · have hc : c = Char.ofNat 11 := char_eq_of_toNat (by rw [h]; rfl)
    subst hc; decide
  · have hc : c = Char.ofNat 12 := char_eq_of_toNat (by rw [h]; rfl)
    subst hc; decide

/-- A word character is not an apostrophe. -/
theorem word_not_apos (c : Char) (h : isWordChar c = true) :
    (c = aposC || c = rsqC) = false := by
  by_cases h1 : c = aposC
  · subst h1; exact absurd h (by decide)
  · by_cases h2 : c = rsqC
    · subst h2; exact absurd h (by decide)
    · simp [h1, h2]

/-- An occurrence survives prepending. -/
theorem hasPoss_append_right :
    ∀ (pre l : List Char), hasPoss l = true → hasPoss (pre ++ l) = true := by
  intro pre
  induction pre with
  | nil => intro l h; exact h
  | cons c r ih =>
    intro l h
    simp only [List.cons_append, hasPoss, Bool.or_eq_true]
    exact Or.inr (ih l h)

/-- An occurrence survives appending whitespace. -/
theorem hasPoss_append_spaces :
    ∀ (a sp : List Char), (∀ c ∈ sp, isPySpace c = true) →
      hasPoss a = true → hasPoss (a ++ sp) = true := by
  intro a
  induction a with
  | nil => intro sp _ h; exact absurd h (by decide)
  | cons c a' ih =>
    intro sp hsp h
    simp only [hasPoss, Bool.or_eq_true] at h
    simp only [List.cons_append, hasPoss, Bool.or_eq_true]
    rcases h with h | h
    · left
      rw [Bool.and_eq_true] at h
      rw [Bool.and_eq_true]
      refine ⟨h.1, ?_⟩
      rcases h with ⟨_, h2⟩
      cases a' with
      | nil => exact absurd h2 (by decide)
      | cons d a'' =>
        rw [Bool.and_eq_true] at h2
        show (decide (d = 's') && boundaryNext (a'' ++ sp)) = true
        rw [Bool.and_eq_true]
        refine ⟨h2.1, ?_⟩
        rcases h2 with ⟨_, h3⟩
        cases a'' with
        | nil =>
          cases sp with
          | nil => rfl
          | cons e r =>
            show (!isWordChar e) = true
            rw [space_not_word e (hsp e (List.mem_cons_self e r))]
            rfl
        | cons e r => exact h3
    · exact Or.inr (ih sp hsp h)

/-- If the stripped result starts with a word character, so did the input. -/
theorem possSub_head_word :
    ∀ (l : List Char) (x : Char) (t : List Char),
      possSub l = x :: t → isWordChar x = true → ∃ t₀, l = x :: t₀ := by
  intro l
  induction l using possSub.induct with
  | case1 => intro x t h _; simp [possSub] at h
  | case2 c =>
    intro x t h _
    simp only [possSub, List.cons.injEq] at h
    exact ⟨[], by rw [h.1]⟩
  | case3 c d rest hcond ih =>
    intro x t h hw
    rw [possSub, if_pos hcond] at h
    rcases ih x t h hw with ⟨t₀, rfl⟩
    rw [Bool.and_eq_true] at hcond
    rcases hcond with ⟨_, hbnd⟩
    rw [boundaryNext, hw] at hbnd
    exact absurd hbnd (by decide)
  | case4 c d rest hcond _ =>
    intro x t h _
    rw [possSub, if_neg hcond] at h
    rcases List.cons.injEq _ _ _ _ ▸ h with ⟨rfl, _⟩
    exact ⟨d :: rest, rfl⟩

/-- A word-character head survives stripping. -/
theorem possSub_cons_word (e : Char) (r : List Char) (h : isWordChar e = true) :
    ∃ t, possSub (e :: r) = e :: t := by
  cases r with
  | nil => exact ⟨[], rfl⟩
  | cons d r2 =>
    refine ⟨possSub (d :: r2), ?_⟩
    rw [possSub, if_neg ?_]
    rw [word_not_apos e h]
    simp

/-- The output of `possSub` contains no possessive occurrence. -/
theorem possSub_no_poss : ∀ l : List Char, hasPoss (possSub l) = false := by
  intro l
  induction l using possSub.induct with
  | case1 => rfl
  | case2 c => simp [possSub, hasPoss]
  | case3 c d rest hcond ih => rw [possSub, if_pos hcond]; exact ih
  | case4 c d rest hcond ih =>
    rw [possSub, if_neg hcond]
    simp only [hasPoss, Bool.or_eq_false_iff]
    refine ⟨?_, ih⟩
    by_cases hc : (c = aposC || c = rsqC) = true
    · rw [hc, Bool.true_and]
      cases hX : possSub (d :: rest) with
      | nil => rfl
      | cons e r2 =>
        have hred : (match e :: r2 with
            | [] => false
            | d :: r2 => decide (d = 's') && boundaryNext r2) =
            (decide (e = 's') && boundaryNext r2) := rfl
        rw [hred]
        by_cases he : e = 's'
        · subst he
          rcases possSub_head_word (d :: rest) 's' r2 hX (by decide) with ⟨t₀, ht⟩
          have hd : d = 's' := (List.cons.injEq _ _ _ _ ▸ ht).1
          have hrest : rest = t₀ := (List.cons.injEq _ _ _ _ ▸ ht).2
          have hbnd : boundaryNext rest = false := by
            by_cases hb : boundaryNext rest = true
            · exact absurd (by rw [hc, hd, hb]; simp :
                ((c = aposC || c = rsqC) && decide (d = 's') && boundaryNext rest) = true)
                hcond
            · simpa using hb
          cases hrest2 : rest with
          | nil => rw [hrest2] at hbnd; exact absurd hbnd (by decide)
          | cons e0 r0 =>
            rw [hrest2, boundaryNext] at hbnd
            have hw0 : isWordChar e0 = true := by simpa using hbnd
            have hXval : possSub (d :: rest) = 's' :: possSub (e0 :: r0) := by
              rw [hd, hrest2, possSub, if_neg ?_]
              rw [word_not_apos 's' (by decide)]
              simp
            rcases possSub_cons_word e0 r0 hw0 with ⟨t1, ht1⟩
            have hr2 : r2 = possSub (e0 :: r0) :=
              (List.cons.injEq _ _ _ _ ▸ (hX.symm.trans hXval)).2
            rw [hr2, ht1, boundaryNext, hw0]
            simp
        · simp [he]
    · rw [Bool.not_eq_true] at hc
      rw [hc, Bool.false_and]

/-- `possSub` is the identity on strings with no possessive occurrence. -/
theorem possSub_id : ∀ l : List Char, hasPoss l = false → possSub l = l := by
  intro l
  induction l using possSub.induct with
  | case1 => intro _; rfl
  | case2 c => intro _; rfl
  | case3 c d rest hcond _ =>
    intro h
    exfalso
    simp only [hasPoss, Bool.or_eq_false_iff] at h
    rcases h with ⟨h1, _⟩
    rw [Bool.and_eq_true, Bool.and_eq_true] at hcond
    rcases hcond with ⟨⟨ha, hd⟩, hbnd⟩
    rw [ha] at h1
    have : (match d :: rest with
        | [] => false
        | d :: r2 => decide (d = 's') && boundaryNext r2) = false := by
      simpa using h1
    rw [show (match d :: rest with
        | [] => false
        | d :: r2 => decide (d = 's') && boundaryNext r2) =
        (decide (d = 's') && boundaryNext rest) from rfl] at this
    rw [hd, hbnd] at this
    simp at this
  | case4 c d rest hcond ih =>
    intro h
    rw [possSub, if_neg hcond]
    simp only [hasPoss, Bool.or_eq_false_iff] at h
    rw [ih (by simp only [hasPoss, Bool.or_eq_false_iff]; exact h.2)]

/-- The head of `dropWhile p` never satisfies `p`. -/
theorem dropWhile_head_not (p : Char → Bool) :
    ∀ (l : List Char) (c : Char) (r : List Char),
      l.dropWhile p = c :: r → p c = false := by
  intro l
  induction l with
  | nil => intro c r h; simp [List.dropWhile] at h
  | cons d rest ih =>
    intro c r h
    rw [List.dropWhile_cons] at h
    split at h
    · exact ih c r h
    · rcases List.cons.injEq _ _ _ _ ▸ h with ⟨rfl, _⟩
      simpa using ‹¬p d = true›

/-- An occurrence in a left-trimmed string is one in the original. -/
theorem hasPoss_dropWhile (p : Char → Bool) :
    ∀ l : List Char, hasPoss (l.dropWhile p) = true → hasPoss l = true := by
  intro l
  induction l with
  | nil => intro h; simpa [List.dropWhile] using h
  | cons d rest ih =>
    intro h
    rw [List.dropWhile_cons] at h
    simp only [hasPoss, Bool.or_eq_true]
    split at h
    · exact Or.inr (ih h)
    · rcases Bool.or_eq_true _ _ ▸ h with h1 | h2
      · exact Or.inl h1
      · exact Or.inr h2

/-- Right-trim decomposition: the input is the trimmed part plus a trailing
run of `p`-characters. -/
theorem trimRight_decomp (p : Char → Bool) :
    ∀ l : List Char, ∃ sp, l = trimRightBy p l ++ sp ∧ ∀ c ∈ sp, p c = true := by
  intro l
  induction l with
  | nil => exact ⟨[], rfl, by intro c h; exact absurd h (List.not_mem_nil c)⟩
  | cons c rest ih =>
    rcases ih with ⟨sp, hdec, hsp⟩
    cases hT : trimRightBy p rest with
    | nil =>
      by_cases hc : p c = true
      · refine ⟨c :: rest, ?_, ?_⟩
        · rw [trimRightBy, hT]
          simp [hc]
        · intro e he
          rw [hT] at hdec
          have hrs : rest = sp := by simpa using hdec
          rcases List.mem_cons.mp he with rfl | he2
          · exact hc
          · exact hsp e (hrs ▸ he2)
      · refine ⟨rest, ?_, ?_⟩
        · rw [trimRightBy, hT]
          simp [hc]
        · intro e he
          rw [hT] at hdec
          have hrs : rest = sp := by simpa using hdec
          exact hsp e (hrs ▸ he)
    | cons t ts =>
      refine ⟨sp, ?_, hsp⟩
      rw [trimRightBy, hT]
      simp only []
      rw [List.cons_append]
      rw [hT] at hdec
      rw [← hdec]

/-- An occurrence in a right-trimmed string is one in the original. -/
theorem hasPoss_trimRight :
    ∀ l : List Char, hasPoss (trimRightBy isPySpace l) = true → hasPoss l = true := by
  intro l h
  rcases trimRight_decomp isPySpace l with ⟨sp, hdec, hsp⟩
  rw [hdec]
  exact hasPoss_append_spaces _ sp hsp h

/-- No occurrence survives `str.strip()` in either direction. -/
theorem hasPoss_pyStrip_false (l : List Char) (h : hasPoss l = false) :
    hasPoss (pyStrip l) = false := by
  by_cases h2 : hasPoss (pyStrip l) = true
  · rw [pyStrip, trimBothBy] at h2
    have := hasPoss_dropWhile isPySpace l (hasPoss_trimRight _ h2)
    rw [this] at h
    exact absurd h (by simp)
  · simpa using h2

/-- Inside a run, leading whitespace is skipped. -/
theorem collapseGo_true_dropWhile :
    ∀ l : List Char, collapseGo true l = collapseGo true (l.dropWhile isPySpace) := by
  intro l
  induction l with
  | nil => rfl
  | cons c r ih =>
    by_cases hc : isPySpace c = true
    · rw [collapseGo, if_pos hc, if_pos rfl, List.dropWhile_cons, if_pos hc]
      exact ih
    · rw [List.dropWhile_cons, if_neg hc]

/-- After the run flag, the collapsed left-trimmed forms agree. -/
theorem collapseGo_true_eq_false_dropWhile :
    ∀ l : List Char,
      (collapseGo true l).dropWhile isPySpace =
        collapseGo false (l.dropWhile isPySpace) := by
  intro l
  induction l with
  | nil => rfl
  | cons c r ih =>
    by_cases hc : isPySpace c = true
    · rw [collapseGo, if_pos hc, if_pos rfl, List.dropWhile_cons, if_pos hc]
      exact ih
    · rw [collapseGo, if_neg hc, List.dropWhile_cons, if_neg hc,
        List.dropWhile_cons, if_neg hc, collapseGo, if_neg hc]

/-- Left-trimming commutes with whitespace collapsing. -/
theorem dropWhile_collapseGo :
    ∀ l : List Char,
      (collapseGo false l).dropWhile isPySpace =
        collapseGo false (l.dropWhile isPySpace) := by
  intro l
  cases l with
  | nil => rfl
  | cons c r =>
    by_cases hc : isPySpace c = true
    · have hR : List.dropWhile isPySpace (c :: r) = List.dropWhile isPySpace r := by
        rw [List.dropWhile_cons, if_pos hc]
      rw [hR, collapseGo, if_pos hc, if_neg (by simp)]
      have hL : List.dropWhile isPySpace (' ' :: collapseGo true r) =
          List.dropWhile isPySpace (collapseGo true r) := by
        rw [List.dropWhile_cons, if_pos (by decide)]
      rw [hL]
      exact collapseGo_true_eq_false_dropWhile r
    · rw [collapseGo, if_neg hc, List.dropWhile_cons, if_neg hc,
        List.dropWhile_cons, if_neg hc, collapseGo, if_neg hc]

/-- Collapsing pure whitespace right-trims to nothing. -/
theorem trimRight_collapseGo_spaces :
    ∀ (sp : List Char) (b : Bool), (∀ c ∈ sp, isPySpace c = true) →
      trimRightBy isPySpace (collapseGo b sp) = [] := by
  intro sp
  induction sp with
  | nil => intro b _; rfl
  | cons c r ih =>
    intro b hsp
    have hc : isPySpace c = true := hsp c (List.mem_cons_self c r)
    have hr : ∀ e ∈ r, isPySpace e = true :=
      fun e he => hsp e (List.mem_cons_of_mem c he)
    cases b with
    | true =>
      rw [collapseGo, if_pos hc, if_pos rfl]
      exact ih true hr
    | false =>
      rw [collapseGo, if_pos hc, if_neg (by simp)]
      rw [trimRightBy, ih true hr]
      decide

/-- Appending trailing whitespace does not change the right-trimmed
collapse. -/
theorem trimRight_collapseGo_append :
    ∀ (a : List Char) (b : Bool) (sp : List Char),
      (∀ c ∈ sp, isPySpace c = true) →
      trimRightBy isPySpace (collapseGo b (a ++ sp)) =
        trimRightBy isPySpace (collapseGo b a) := by
  intro a
  induction a with
  | nil =>
    intro b sp hsp
    rw [List.nil_append]
    rw [trimRight_collapseGo_spaces sp b hsp]
    rfl
  | cons c a' ih =>
    intro b sp hsp
    by_cases hc : isPySpace c = true
    · cases b with
      | true =>
        rw [List.cons_append, collapseGo, if_pos hc, if_pos rfl,
          collapseGo, if_pos hc, if_pos rfl]
        exact ih true sp hsp
      | false =>
        rw [List.cons_append, collapseGo, if_pos hc, if_neg (by simp),
          collapseGo, if_pos hc, if_neg (by simp)]
        rw [trimRightBy, trimRightBy, ih true sp hsp]
    · rw [List.cons_append, collapseGo, if_neg hc, collapseGo, if_neg hc]
      rw [trimRightBy, trimRightBy, ih false sp hsp]

/-- Right-trimming is idempotent. -/
theorem trimRight_idem (p : Char → Bool) :
    ∀ l : List Char, trimRightBy p (trimRightBy p l) = trimRightBy p l := by
  intro l
  induction l with
  | nil => rfl
  | cons c rest ih =>
    cases hT : trimRightBy p rest with
    | nil =>
      by_cases hc : p c = true
      · have h1 : trimRightBy p (c :: rest) = [] := by
          rw [trimRightBy, hT]; simp [hc]
        rw [h1]
        rfl
      · have h1 : trimRightBy p (c :: rest) = [c] := by
          rw [trimRightBy, hT]; simp [hc]
        rw [h1]
        simp [trimRightBy, hc]
    | cons t ts =>
      have h1 : trimRightBy p (c :: rest) = c :: t :: ts := by
        rw [trimRightBy, hT]
      have ih2 : trimRightBy p (t :: ts) = t :: ts := by
        rw [← hT]; exact ih
      rw [h1, trimRightBy, ih2]

/-- The right-trim preserves the head. -/
theorem trimRight_head (p : Char → Bool) :
    ∀ (l : List Char) (c : Char) (r : List Char),
      trimRightBy p l = c :: r → ∃ l', l = c :: l' := by
  intro l
  induction l with
  | nil => intro c r h; simp [trimRightBy] at h
  | cons d rest _ =>
    intro c r h
    rw [trimRightBy] at h
    cases hT : trimRightBy p rest with
    | nil =>
      rw [hT] at h
      by_cases hd : p d = true
      · rw [if_pos hd] at h; exact absurd h (by simp)
      · rw [if_neg hd] at h
        rcases List.cons.injEq _ _ _ _ ▸ h with ⟨rfl, _⟩
        exact ⟨rest, rfl⟩
    | cons t ts =>
      rw [hT] at h
      rcases List.cons.injEq _ _ _ _ ▸ h with ⟨rfl, _⟩
      exact ⟨rest, rfl⟩

/-- `str.strip()` leaves no leading whitespace. -/
theorem dropWhile_pyStrip (l : List Char) :
    (pyStrip l).dropWhile isPySpace = pyStrip l := by
  rw [pyStrip, trimBothBy]
  cases hT : trimRightBy isPySpace (l.dropWhile isPySpace) with
  | nil => rfl
  | cons c r =>
    rcases trimRight_head isPySpace _ c r hT with ⟨l', hl⟩
    have hc : isPySpace c = false := dropWhile_head_not isPySpace l c l' hl
    rw [List.dropWhile_cons, if_neg (by simp [hc])]

/-- `str.strip()` leaves no trailing whitespace. -/
theorem trimRight_pyStrip (l : List Char) :
    trimRightBy isPySpace (pyStrip l) = pyStrip l := by
  rw [pyStrip, trimBothBy, trimRight_idem]

/-- `str.strip()` is idempotent. -/
theorem pyStrip_idem (l : List Char) : pyStrip (pyStrip l) = pyStrip l := by
  conv_lhs => rw [pyStrip, trimBothBy]
  rw [dropWhile_pyStrip, trimRight_pyStrip]

/-- Stripping before collapsing does not change the collapsed strip. -/
theorem pyStrip_collapse_pyStrip (u : List Char) :
    pyStrip (collapseWs (pyStrip u)) = pyStrip (collapseWs u) := by
  rcases trimRight_decomp isPySpace (u.dropWhile isPySpace) with ⟨sp, hdec, hsp⟩
  set v := pyStrip u with hv
  have hdv : v.dropWhile isPySpace = v := dropWhile_pyStrip u
  have hL : pyStrip (collapseWs v) = trimRightBy isPySpace (collapseGo false v) := by
    rw [collapseWs, pyStrip, trimBothBy, dropWhile_collapseGo, hdv]
  have hR : pyStrip (collapseWs u) =
      trimRightBy isPySpace (collapseGo false (u.dropWhile isPySpace)) := by
    rw [collapseWs, pyStrip, trimBothBy, dropWhile_collapseGo]
  rw [hL, hR]
  have hveq : v = trimRightBy isPySpace (u.dropWhile isPySpace) := by
    rw [hv, pyStrip, trimBothBy]
  rw [hveq]
  conv_rhs => rw [hdec]
  rw [trimRight_collapseGo_append _ false sp hsp]

/-- Stripping possessives first does not change the normalised name. -/
theorem normalize_strip_possessive (x : List Char) :
    normalize_name (strip_possessive x) = normalize_name x := by
  have h0 : hasPoss (strip_possessive x) = false := by
    rw [strip_possessive]
    exact possSub_no_poss (pyStrip x)
  have h1 : strip_possessive (strip_possessive x) = pyStrip (strip_possessive x) := by
    rw [show strip_possessive (strip_possessive x) =
        possSub (pyStrip (strip_possessive x)) from rfl]
    exact possSub_id _ (hasPoss_pyStrip_false _ h0)
  calc normalize_name (strip_possessive x)
      = lowerL (pyStrip (collapseWs (pyStrip (strip_possessive x)))) := by
        rw [normalize_name, h1]
    _ = lowerL (pyStrip (collapseWs (strip_possessive x))) := by
        rw [pyStrip_collapse_pyStrip]
    _ = normalize_name x := by rw [normalize_name]

/-- Pre-stripping whitespace does not change the normalised name. -/
theorem normalize_pyStrip (x : List Char) :
    normalize_name (pyStrip x) = normalize_name x := by
  rw [show normalize_name (pyStrip x) =
      lowerL (pyStrip (collapseWs (possSub (pyStrip (pyStrip x))))) from rfl]
  rw [pyStrip_idem]
  rfl

/-- The key fact behind the de-dup invariant: the stored display name
(`_strip_possessive(surface).strip()`) normalises to the same key as the raw
surface form. -/
theorem normalize_stored_name (x : List Char) :
    normalize_name (pyStrip (strip_possessive x)) = normalize_name x := by
  rw [normalize_pyStrip, normalize_strip_possessive]

/-- Digit characters decode back to their value. -/
theorem digitChar10_toNat (n : Nat) (h : n < 10) : (digitChar10 n).toNat = 48 + n := by
  interval_cases n <;> rfl

/-- Decimal rendering decodes to the rendered number. -/
theorem decode_toDecF :
    ∀ (fuel n : Nat), n < fuel → decodeDigits (toDecF fuel n) = n := by
  intro fuel
  induction fuel with
  | zero => intro n h; omega
  | succ fuel ih =>
    intro n h
    by_cases h10 : n < 10
    · rw [toDecF, if_pos h10]
      simp [decodeDigits, digitChar10_toNat n h10]
    · rw [toDecF, if_neg h10]
      rw [decodeDigits, List.foldl_append]
      have hlt : n / 10 < fuel := by
        have := Nat.div_lt_self (by omega : 0 < n) (by omega : 1 < 10)
        omega
      have hmod : n % 10 < 10 := Nat.mod_lt _ (by omega)
      rw [← decodeDigits, ih (n / 10) hlt]
      simp only [List.foldl_cons, List.foldl_nil]
      rw [digitChar10_toNat (n % 10) hmod]
      omega

/-- Leading zero padding does not change the decoded value. -/
theorem decode_pad_zeros :
    ∀ (k : Nat) (ds : List Char),
      decodeDigits (List.replicate k '0' ++ ds) = decodeDigits ds := by
  intro k
  induction k with
  | zero => intro ds; rfl
  | succ k ih =>
    intro ds
    rw [List.replicate_succ, List.cons_append, decodeDigits, List.foldl_cons]
    have : (0 : Nat) * 10 + ('0'.toNat - 48) = 0 := by decide
    rw [this, ← decodeDigits]
    exact ih ds

/-- The sequential entity-id format is injective. -/
theorem mkEntId_inj (m n : Nat) (h : mkEntId m = mkEntId n) : m = n := by
  have hp : pad6 m = pad6 n := List.append_cancel_left h
  have hd : decodeDigits (pad6 m) = decodeDigits (pad6 n) := by rw [hp]
  rw [pad6, pad6, decode_pad_zeros, decode_pad_zeros, toDec, toDec,
    decode_toDecF (m + 1) m (by omega), decode_toDecF (n + 1) n (by omega)] at hd
  exact hd

/-- A key absent from the dict is not the key of any stored pair. -/
theorem alistFindP_none {β : Type} :
    ∀ (l : List ((List Char × List Char) × β)) (k : List Char × List Char),
      alistFindP l k = none → ∀ kv ∈ l, kv.1 ≠ k := by
  intro l
  induction l with
  | nil => intro k _ kv hm; exact absurd hm (by simp)
  | cons kv0 rest ih =>
    intro k h kv hm
    obtain ⟨k0, v0⟩ := kv0
    rw [alistFindP] at h
    by_cases hk : k0 = k
    · rw [if_pos hk] at h; exact absurd h (by simp)
    · rw [if_neg hk] at h
      rcases List.mem_cons.mp hm with rfl | hm'
      · exact hk
      · exact ih k h kv hm'

/-- In-place value update leaves the key sequence unchanged. -/
theorem byKeyUpdate_map_fst
    (l : List ((List Char × List Char) × Entity))
    (k : List Char × List Char) (f : Entity → Entity) :
    (byKeyUpdate l k f).map Prod.fst = l.map Prod.fst := by
  unfold byKeyUpdate
  rw [List.map_map]
  apply List.map_congr_left
  intro kv _
  by_cases hk : kv.1 = k
  · simp [hk]
  · simp [hk]

/-- Every pair of an updated dict comes from a stored pair with the same key,
with the value either untouched or passed through the update function. -/
theorem byKeyUpdate_mem
    (l : List ((List Char × List Char) × Entity))
    (k : List Char × List Char) (f : Entity → Entity)
    (kv : (List Char × List Char) × Entity) (h : kv ∈ byKeyUpdate l k f) :
    ∃ kv₀ ∈ l, kv.1 = kv₀.1 ∧ (kv.2 = kv₀.2 ∨ kv.2 = f kv₀.2) := by
  unfold byKeyUpdate at h
  rcases List.mem_map.mp h with ⟨kv₀, hm, heq⟩
  by_cases hk : kv₀.1 = k
  · rw [if_pos hk] at heq
    exact ⟨kv₀, hm, by rw [← heq], Or.inr (by rw [← heq])⟩
  · rw [if_neg hk] at heq
    exact ⟨kv₀, hm, by rw [← heq], Or.inl (by rw [← heq])⟩

/-- In-place value update leaves the image of any value projection invariant
by the update function unchanged. -/
theorem byKeyUpdate_map_val {γ : Type}
    (l : List ((List Char × List Char) × Entity))
    (k : List Char × List Char) (f : Entity → Entity) (g : Entity → γ)
    (hg : ∀ e, g (f e) = g e) :
    (byKeyUpdate l k f).map (fun kv => g kv.2) = l.map (fun kv => g kv.2) := by
  unfold byKeyUpdate
  rw [List.map_map]
  apply List.map_congr_left
  intro kv _
  by_cases hk : kv.1 = k
  · simp [hk, hg]
  · simp [hk]

/-- `pop` yields a sublist of the dict. -/
theorem byKeyRemove_sublist
    (l : List ((List Char × List Char) × Entity))
    (k : List Char × List Char) :
    List.Sublist (byKeyRemove l k) l :=
  List.filter_sublist l

/-- Shape of one resolver iteration: it either skips the span, inserts a
fresh entity under an absent key, or updates one stored entity in a way that
preserves its type, name and id. -/
theorem resolveStep_shape (text tid : List Char) (st : NerSt) (r : RawSpan)
    (st' : NerSt) (h : resolveStep text tid st r = Except.ok st') :
    st' = st ∨
    (∃ (key : List Char × List Char) (ename : List Char) (conf : ℚ),
        alistFindP st.byKey key = none ∧
        key.2 = normalize_name ename ∧
        st' = ⟨st.byKey ++
          [(key, ⟨mkEntId st.counter, key.1, pyStrip (strip_possessive ename),
            [], [], tid, tid, 1, conf, [pyStrip (strip_possessive ename)]⟩)],
          st.counter + 1⟩) ∨
    (∃ (key : List Char × List Char) (f : Entity → Entity),
        (∀ e, (f e).entityType = e.entityType ∧ (f e).name = e.name ∧
          (f e).id = e.id) ∧
        st' = ⟨byKeyUpdate st.byKey key f, st.counter⟩) := by
  simp only [resolveStep] at h
  split at h
  · exact Or.inl (by simpa using h.symm)
  · split at h
    · exact Or.inl (by simpa using h.symm)
    · split at h
      · simp at h
      · exact Or.inl (by simpa using h.symm)
      · split at h
        · exact Or.inl (by simpa using h.symm)
        · split at h
          · exact Or.inl (by simpa using h.symm)
          · split at h
            · rename_i hfind
              simp only [Except.ok.injEq] at h
              subst h
              exact Or.inr (Or.inl ⟨_, _, _, hfind, rfl, rfl⟩)
            · simp only [Except.ok.injEq] at h
              subst h
              refine Or.inr (Or.inr ⟨_, _, ?_, rfl⟩)
              intro e
              exact ⟨rfl, rfl, rfl⟩

/-- One resolver iteration preserves the dict invariant: keys are pairwise
distinct, each key is the `(entityType, normalized name)` of its entity, ids
are pairwise distinct, and each id is `mkEntId j` for a unique `1 ≤ j`
below the counter. -/
theorem resolveStep_inv (text tid : List Char) (st : NerSt) (r : RawSpan)
    (st' : NerSt) (h : resolveStep text tid st r = Except.ok st')
    (h1 : (st.byKey.map Prod.fst).Nodup)
    (h2 : ∀ kv ∈ st.byKey, kv.1 = (kv.2.entityType, normalize_name kv.2.name))
    (h3 : (st.byKey.map (fun kv => kv.2.id)).Nodup)
    (h4 : ∀ kv ∈ st.byKey, ∃ j, 1 ≤ j ∧ j < st.counter ∧ kv.2.id = mkEntId j)
    (h5 : 1 ≤ st.counter) :
    (st'.byKey.map Prod.fst).Nodup ∧
    (∀ kv ∈ st'.byKey, kv.1 = (kv.2.entityType, normalize_name kv.2.name)) ∧
    (st'.byKey.map (fun kv => kv.2.id)).Nodup ∧
    (∀ kv ∈ st'.byKey, ∃ j, 1 ≤ j ∧ j < st'.counter ∧ kv.2.id = mkEntId j) ∧
    1 ≤ st'.counter := by
  rcases resolveStep_shape text tid st r st' h with rfl | hcase | hcase
  · exact ⟨h1, h2, h3, h4, h5⟩
  · obtain ⟨key, ename, conf, hfind, hkey, rfl⟩ := hcase
    refine ⟨?_, ?_, ?_, ?_, Nat.le_succ_of_le h5⟩
    · rw [List.map_append]
      refine List.Nodup.append h1 (by simp) ?_
      intro a ha hb
      simp only [List.map_cons, List.map_nil, List.mem_singleton] at hb
      rcases List.mem_map.mp ha with ⟨kv, hm, hfst⟩
      rw [hb] at hfst
      exact alistFindP_none st.byKey key hfind kv hm hfst
    · intro kv hm
      rcases List.mem_append.mp hm with hm' | hm'
      · exact h2 kv hm'
      · simp only [List.mem_singleton] at hm'
        subst hm'
        have hn : normalize_name (pyStrip (strip_possessive ename)) = key.2 := by
          rw [normalize_stored_name, hkey]
        simp [hn]
    · rw [List.map_append]
      refine List.Nodup.append h3 (by simp) ?_
      intro a ha hb
      simp only [List.map_cons, List.map_nil, List.mem_singleton] at hb
      subst hb
      rcases List.mem_map.mp ha with ⟨kv, hm, hid⟩
      obtain ⟨j, hj1, hj2, hj3⟩ := h4 kv hm
      rw [hj3] at hid
      have := mkEntId_inj j st.counter hid
      omega
    · intro kv hm
      rcases List.mem_append.mp hm with hm' | hm'
      · obtain ⟨j, hj1, hj2, hj3⟩ := h4 kv hm'
        exact ⟨j, hj1, Nat.lt_succ_of_lt hj2, hj3⟩
      · simp only [List.mem_singleton] at hm'
        subst hm'
        exact ⟨st.counter, h5, Nat.lt_succ_self st.counter, rfl⟩
  · obtain ⟨key, f, hf, rfl⟩ := hcase
    refine ⟨?_, ?_, ?_, ?_, h5⟩
    · rw [byKeyUpdate_map_fst]; exact h1
    · intro kv hm
      obtain ⟨kv₀, hm₀, hfst, hsnd⟩ := byKeyUpdate_mem st.byKey key f kv hm
      have hk := h2 kv₀ hm₀
      rcases hsnd with hsnd | hsnd
      · rw [hfst, hsnd]; exact hk
      · rw [hfst, hsnd, hk, (hf kv₀.2).1, (hf kv₀.2).2.1]
    · rw [byKeyUpdate_map_val st.byKey key f Entity.id (fun e => (hf e).2.2)]
      exact h3
    · intro kv hm
      obtain ⟨kv₀, hm₀, _, hsnd⟩ := byKeyUpdate_mem st.byKey key f kv hm
      obtain ⟨j, hj1, hj2, hj3⟩ := h4 kv₀ hm₀
      rcases hsnd with hsnd | hsnd
      · exact ⟨j, hj1, hj2, by rw [hsnd, hj3]⟩
      · exact ⟨j, hj1, hj2, by rw [hsnd, (hf kv₀.2).2.2, hj3]⟩

/-- The whole NER loop preserves the dict invariant. -/
theorem nerFold_inv (text tid : List Char) :
    ∀ (rs : List RawSpan) (st st' : NerSt),
      nerFold text tid rs st = Except.ok st' →
      (st.byKey.map Prod.fst).Nodup →
      (∀ kv ∈ st.byKey, kv.1 = (kv.2.entityType, normalize_name kv.2.name)) →
      (st.byKey.map (fun kv => kv.2.id)).Nodup →
      (∀ kv ∈ st.byKey, ∃ j, 1 ≤ j ∧ j < st.counter ∧ kv.2.id = mkEntId j) →
      1 ≤ st.counter →
      (st'.byKey.map Prod.fst).Nodup ∧
      (∀ kv ∈ st'.byKey, kv.1 = (kv.2.entityType, normalize_name kv.2.name)) ∧
      (st'.byKey.map (fun kv => kv.2.id)).Nodup ∧
      (∀ kv ∈ st'.byKey, ∃ j, 1 ≤ j ∧ j < st'.counter ∧ kv.2.id = mkEntId j) ∧
      1 ≤ st'.counter := by
  intro rs
  induction rs with
  | nil =>
    intro st st' h h1 h2 h3 h4 h5
    rw [nerFold] at h
    simp only [Except.ok.injEq] at h
    subst h
    exact ⟨h1, h2, h3, h4, h5⟩
  | cons r rest ih =>
    intro st st' h h1 h2 h3 h4 h5
    rw [nerFold] at h
    cases hstep : resolveStep text tid st r with
    | error e => rw [hstep] at h; simp at h
    | ok stm =>
      rw [hstep] at h
      obtain ⟨g1, g2, g3, g4, g5⟩ := resolveStep_inv text tid st r stm hstep h1 h2 h3 h4 h5
      exact ih stm st' h g1 g2 g3 g4 g5

/-- Updating one value (type/name/id-preserving) and popping one key
preserve the dict invariant, with ids bounded by any fixed `N`. -/
theorem byKeyOps_inv (ck k' : List Char × List Char) (f : Entity → Entity)
    (hf : ∀ e, (f e).entityType = e.entityType ∧ (f e).name = e.name ∧
      (f e).id = e.id)
    (N : Nat) (byKey : List ((List Char × List Char) × Entity))
    (h1 : (byKey.map Prod.fst).Nodup)
    (h2 : ∀ kv ∈ byKey, kv.1 = (kv.2.entityType, normalize_name kv.2.name))
    (h3 : (byKey.map (fun kv => kv.2.id)).Nodup)
    (h4 : ∀ kv ∈ byKey, ∃ j, 1 ≤ j ∧ j < N ∧ kv.2.id = mkEntId j) :
    ((byKeyRemove (byKeyUpdate byKey ck f) k').map Prod.fst).Nodup ∧
    (∀ kv ∈ byKeyRemove (byKeyUpdate byKey ck f) k',
      kv.1 = (kv.2.entityType, normalize_name kv.2.name)) ∧
    ((byKeyRemove (byKeyUpdate byKey ck f) k').map
      (fun kv => kv.2.id)).Nodup ∧
    (∀ kv ∈ byKeyRemove (byKeyUpdate byKey ck f) k',
      ∃ j, 1 ≤ j ∧ j < N ∧ kv.2.id = mkEntId j) := by
  have hsub := byKeyRemove_sublist (byKeyUpdate byKey ck f) k'
  refine ⟨?_, ?_, ?_, ?_⟩
  · exact List.Nodup.sublist (List.Sublist.map Prod.fst hsub)
      (by rw [byKeyUpdate_map_fst]; exact h1)
  · intro kv hm
    have hm' := List.Sublist.subset hsub hm
    obtain ⟨kv₀, hm₀, hfst, hsnd⟩ := byKeyUpdate_mem byKey ck f kv hm'
    have hk := h2 kv₀ hm₀
    rcases hsnd with hsnd | hsnd
    · rw [hfst, hsnd]; exact hk
    · rw [hfst, hsnd, hk, (hf kv₀.2).1, (hf kv₀.2).2.1]
  · refine List.Nodup.sublist (List.Sublist.map (fun kv => kv.2.id) hsub) ?_
    rw [byKeyUpdate_map_val byKey ck f Entity.id (fun e => (hf e).2.2)]
    exact h3
  · intro kv hm
    have hm' := List.Sublist.subset hsub hm
    obtain ⟨kv₀, hm₀, _, hsnd⟩ := byKeyUpdate_mem byKey ck f kv hm'
    obtain ⟨j, hj1, hj2, hj3⟩ := h4 kv₀ hm₀
    rcases hsnd with hsnd | hsnd
    · exact ⟨j, hj1, hj2, by rw [hsnd, hj3]⟩
    · exact ⟨j, hj1, hj2, by rw [hsnd, (hf kv₀.2).2.2, hj3]⟩

/-- The surname-merge pass preserves the dict invariant. -/
theorem surnameMerge_inv (tid : List Char)
    (idx : List (List Char × (List Char × List Char))) (N : Nat) :
    ∀ (snap byKey : List ((List Char × List Char) × Entity)),
      (byKey.map Prod.fst).Nodup →
      (∀ kv ∈ byKey, kv.1 = (kv.2.entityType, normalize_name kv.2.name)) →
      (byKey.map (fun kv => kv.2.id)).Nodup →
      (∀ kv ∈ byKey, ∃ j, 1 ≤ j ∧ j < N ∧ kv.2.id = mkEntId j) →
      ((surnameMerge tid idx snap byKey).map Prod.fst).Nodup ∧
      (∀ kv ∈ surnameMerge tid idx snap byKey,
        kv.1 = (kv.2.entityType, normalize_name kv.2.name)) ∧
      ((surnameMerge tid idx snap byKey).map (fun kv => kv.2.id)).Nodup ∧
      (∀ kv ∈ surnameMerge tid idx snap byKey,
        ∃ j, 1 ≤ j ∧ j < N ∧ kv.2.id = mkEntId j) := by
  intro snap
  induction snap with
  | nil =>
    intro byKey h1 h2 h3 h4
    exact ⟨h1, h2, h3, h4⟩
  | cons kv rest ih =>
    intro byKey h1 h2 h3 h4
    simp only [surnameMerge]
    split
    · exact ih byKey h1 h2 h3 h4
    · split
      · exact ih byKey h1 h2 h3 h4
      · split
        · exact ih byKey h1 h2 h3 h4
        · split
          · exact ih byKey h1 h2 h3 h4
          · split
            · exact ih byKey h1 h2 h3 h4
            · obtain ⟨g1, g2, g3, g4⟩ :=
                byKeyOps_inv _ kv.1
                  (fun canon =>
                    { canon with
                      seenForms := (setAdd kv.2.seenForms kv.2.name).foldl
                        setAdd canon.seenForms,
                      version := canon.version + 1,
                      lastUpdatedAt := tid,
                      confidence := if canon.confidence < kv.2.confidence
                                    then kv.2.confidence else canon.confidence })
                  (fun e => ⟨rfl, rfl, rfl⟩) N byKey h1 h2 h3 h4
              exact ih _ g1 g2 g3 g4

/-- Finalisation maps each stored pair to its entity and leaves the
de-duplication key at the stored key. -/
theorem finalize_map_key (byKey : List ((List Char × List Char) × Entity))
    (h : ∀ kv ∈ byKey, kv.1 = (kv.2.entityType, normalize_name kv.2.name)) :
    (finalizeEntities byKey).map entity_key = byKey.map Prod.fst := by
  unfold finalizeEntities
  rw [List.map_map]
  apply List.map_congr_left
  intro kv hm
  exact (h kv hm).symm

/-- Finalisation leaves the id sequence unchanged. -/
theorem finalize_map_id (byKey : List ((List Char × List Char) × Entity)) :
    (finalizeEntities byKey).map Entity.id = byKey.map (fun kv => kv.2.id) := by
  unfold finalizeEntities
  rw [List.map_map]
  rfl

/-- Every finalised entity carries the id of a stored pair. -/
theorem finalize_mem_id (byKey : List ((List Char × List Char) × Entity))
    (e : Entity) (h : e ∈ finalizeEntities byKey) :
    ∃ kv ∈ byKey, e.id = kv.2.id := by
  unfold finalizeEntities at h
  rcases List.mem_map.mp h with ⟨kv, hm, heq⟩
  exact ⟨kv, hm, by rw [← heq]⟩

/-- End-to-end invariant of the NER pipeline: the returned entities have
pairwise-distinct de-duplication keys and pairwise-distinct sequential ids
bounded by the final counter. -/
theorem ner_pipeline_inv (spans : List RawSpan) (text tid : List Char)
    (st : NerSt) (h : nerFold text tid spans ⟨[], 1⟩ = Except.ok st) :
    ((ner_extract_entities spans text tid).map entity_key).Nodup ∧
    ((ner_extract_entities spans text tid).map Entity.id).Nodup ∧
    (∀ e ∈ ner_extract_entities spans text tid,
      ∃ j, 1 ≤ j ∧ j < st.counter ∧ e.id = mkEntId j) := by
  obtain ⟨g1, g2, g3, g4, g5⟩ :=
    nerFold_inv text tid spans ⟨[], 1⟩ st h (by simp) (by simp) (by simp)
      (by simp) (le_refl 1)
  obtain ⟨m1, m2, m3, m4⟩ :=
    surnameMerge_inv tid (surnameIndex st.byKey) st.counter st.byKey st.byKey
      g1 g2 g3 g4
  have hdef : ner_extract_entities spans text tid =
      finalizeEntities
        (surnameMerge tid (surnameIndex st.byKey) st.byKey st.byKey) := by
    simp only [ner_extract_entities, h]
  refine ⟨?_, ?_, ?_⟩
  · rw [hdef, finalize_map_key _ m2]; exact m1
  · rw [hdef, finalize_map_id]; exact m3
  · intro e he
    rw [hdef] at he
    obtain ⟨kv, hm, hid⟩ := finalize_mem_id _ e he
    obtain ⟨j, hj1, hj2, hj3⟩ := m4 kv hm
    exact ⟨j, hj1, hj2, by rw [hid, hj3]⟩

/-- The pattern-addition fold keeps de-duplication keys pairwise distinct,
given that every accumulated entity's key is recorded in the name set. -/
theorem hybridPatternFold_keys (tid : List Char) :
    ∀ (pms : List (List Char × List Char)) (entities : List Entity)
      (nameset : List (List Char × List Char)) (counter : Nat),
      ((entities.map entity_key).Nodup) →
      (∀ e ∈ entities, entity_key e ∈ nameset) →
      ((hybridPatternFold tid pms entities nameset counter).map
        entity_key).Nodup := by
  intro pms
  induction pms with
  | nil => intro entities nameset counter h1 _; exact h1
  | cons p rest ih =>
    obtain ⟨etype, m⟩ := p
    intro entities nameset counter h1 h2
    simp only [hybridPatternFold]
    split
    · exact ih entities nameset counter h1 h2
    · split
      · exact ih entities nameset counter h1 h2
      · rename_i hnot _
        have hknew : entity_key
            ⟨mkEntId counter, etype, strip_possessive (pyStrip m), [], [],
              tid, tid, 1, mkRat 9 10, []⟩ =
            (etype, normalize_name (pyStrip m)) := by
          simp only [entity_key]
          rw [normalize_strip_possessive]
        refine ih _ _ _ ?_ ?_
        · rw [List.map_append]
          refine List.Nodup.append h1 (by simp) ?_
          intro a ha hb
          simp only [List.map_cons, List.map_nil, List.mem_singleton] at hb
          rw [hknew] at hb
          rcases List.mem_map.mp ha with ⟨e, hm, hkey⟩
          apply hnot
          rw [← hb, ← hkey]
          exact h2 e hm
        · intro e he
          rcases List.mem_append.mp he with he' | he'
          · exact List.mem_append_left _ (h2 e he')
          · simp only [List.mem_singleton] at he'
            subst he'
            refine List.mem_append_right _ ?_
            rw [hknew]
            exact List.mem_singleton.mpr rfl

/-- The pattern-addition fold keeps ids pairwise distinct, given that every
accumulated id is a sequential id below the counter. -/
theorem hybridPatternFold_ids (tid : List Char) :
    ∀ (pms : List (List Char × List Char)) (entities : List Entity)
      (nameset : List (List Char × List Char)) (counter : Nat),
      ((entities.map Entity.id).Nodup) →
      (∀ e ∈ entities, ∃ j, 1 ≤ j ∧ j < counter ∧ e.id = mkEntId j) →
      1 ≤ counter →
      ((hybridPatternFold tid pms entities nameset counter).map
        Entity.id).Nodup := by
  intro pms
  induction pms with
  | nil => intro entities nameset counter h1 _ _; exact h1
  | cons p rest ih =>
    obtain ⟨etype, m⟩ := p
    intro entities nameset counter h1 h2 h3
    simp only [hybridPatternFold]
    split
    · exact ih entities nameset counter h1 h2 h3
    · split
      · exact ih entities nameset counter h1 h2 h3
      · refine ih _ _ _ ?_ ?_ (Nat.le_succ_of_le h3)
        · rw [List.map_append]
          refine List.Nodup.append h1 (by simp) ?_
          intro a ha hb
          simp only [List.map_cons, List.map_nil, List.mem_singleton] at hb
          rcases List.mem_map.mp ha with ⟨e, hm, hid⟩
          obtain ⟨j, hj1, hj2, hj3⟩ := h2 e hm
          rw [hj3] at hid
          rw [hb] at hid
          have := mkEntId_inj j counter hid
          omega
        · intro e he
          rcases List.mem_append.mp he with he' | he'
          · obtain ⟨j, hj1, hj2, hj3⟩ := h2 e he'
            exact ⟨j, hj1, Nat.lt_succ_of_lt hj2, hj3⟩
          · simp only [List.mem_singleton] at he'
            subst he'
            exact ⟨counter, h3, Nat.lt_succ_self counter, rfl⟩

/-- C3: for every raw-span list, source text, time id and (in hybrid mode)
pattern-match stream, no two entities returned by one resolution call share
the same `(entityType, normalized name)` key — normalization lowercases,
strips possessive markers and collapses whitespace. -/
theorem C3_dedup_invariant :
    ∀ (spans : List RawSpan) (text tid : List Char)
      (patternMatches : List (List Char × List Char)),
      ((ner_extract_entities spans text tid).map entity_key).Nodup ∧
      ((hybrid_extract_entities spans text tid patternMatches).map
        entity_key).Nodup := by
  intro spans text tid pms
  have hner : ((ner_extract_entities spans text tid).map entity_key).Nodup := by
    cases hf : nerFold text tid spans ⟨[], 1⟩ with
    | error e => simp [ner_extract_entities, hf]
    | ok st => exact (ner_pipeline_inv spans text tid st hf).1
  refine ⟨hner, ?_⟩
  simp only [hybrid_extract_entities]
  refine hybridPatternFold_keys tid pms _ _ _ hner ?_
  intro e he
  exact List.mem_map_of_mem _ he

/-- C8 (amended): ids of the entities returned by `extract_entities` are
pairwise distinct; in the hybrid mode they are pairwise distinct whenever no
NER entity was dropped after id assignment, i.e. whenever the final NER
counter equals the number of surviving entities plus one — the situation the
counter restart `len(entities) + 1` silently assumes. -/
theorem C8_ids_distinct :
    (∀ (spans : List RawSpan) (text tid : List Char),
       ((ner_extract_entities spans text tid).map Entity.id).Nodup) ∧
    (∀ (spans : List RawSpan) (text tid : List Char)
       (patternMatches : List (List Char × List Char)) (st : NerSt),
       nerFold text tid spans ⟨[], 1⟩ = Except.ok st →
       st.counter = (ner_extract_entities spans text tid).length + 1 →
       ((hybrid_extract_entities spans text tid patternMatches).map
         Entity.id).Nodup) := by
  constructor
  · intro spans text tid
    cases hf : nerFold text tid spans ⟨[], 1⟩ with
    | error e => simp [ner_extract_entities, hf]
    | ok st => exact (ner_pipeline_inv spans text tid st hf).2.1
  · intro spans text tid pms st hf hc
    obtain ⟨_, hids, hbound⟩ := ner_pipeline_inv spans text tid st hf
    have hb : ∀ e ∈ ner_extract_entities spans text tid,
        ∃ j, 1 ≤ j ∧ j < (ner_extract_entities spans text tid).length + 1 ∧
          e.id = mkEntId j := by
      intro e he
      obtain ⟨j, hj1, hj2, hj3⟩ := hbound e he
      rw [hc] at hj2
      exact ⟨j, hj1, hj2, hj3⟩
    simp only [hybrid_extract_entities]
    exact hybridPatternFold_ids tid pms _ _ _ hids hb
      (Nat.succ_le_succ (Nat.zero_le _))

/-- C8 witness: on the empty span list (where the counter condition holds
definitionally) the hybrid extractor with the pattern stream `patKing`
returns entities with pairwise-distinct ids. -/
theorem C8_ids_distinct_witness :
    nerFold [] [] [] ⟨[], 1⟩ = Except.ok (⟨[], 1⟩ : NerSt) ∧
    (NerSt.mk [] 1).counter = (ner_extract_entities [] [] []).length + 1 ∧
    ((hybrid_extract_entities [] [] [] patKing).map Entity.id).Nodup :=
  ⟨rfl, rfl, C8_ids_distinct.2 [] [] [] patKing ⟨[], 1⟩ rfl rfl⟩
